import Mathlib

/-!
# roomserver/input: the room-event input API

A shallow embedding of `roomserver/input/input.go`.

* The Go type `error` is `Option E` (`none` is `nil`); `json.Marshal`, which
  returns `([]byte, error)`, is `Except E B`.
* The Kafka producer, the database, `processRoomEvent` and `processInviteEvent`
  are collaborators declared outside this file of the repository. They are
  taken as parameters (`Deps`), as state-passing functions.
* `sync.Mutex` is a `Bool` (`true` = held). `Lock` on a held mutex blocks;
  a sequential call that blocks forever has no result (`none`).
* Calls of `util.GetLogger(ctx)` only print; they are left out.
-/

namespace Input

/-! ## Data model -/

/-- The message type of the producer library (`sarama.ProducerMessage`),
restricted to the three fields `WriteOutputEvents` sets. -/
structure ProducerMessage (B : Type) where
  Topic : String
  Key : String
  Value : B
deriving DecidableEq, Repr

/-- The state behind `r.Producer`: the connection state of the producer
library, and a record of every `SendMessages` call made so far with the slice
it was given (a slice of pointers: `none` is a nil entry). -/
structure Producer (P B : Type) where
  conn : P
  sent : List (List (Option (ProducerMessage B)))

/-- The type of the method `WriteOutputEvents` of the interface
`OutputRoomEventWriter`, in state-passing form over the producer. -/
abbrev OutputRoomEventWriter (P B OE E : Type) :=
  String → List OE → Producer P B → Producer P B × Option E

/-- The collaborators of the package. -/
structure Deps (Ctx D P B RE IE OE E : Type) where
  /-- Encoder `json.Marshal` on an `api.OutputEvent` -/
  marshal : OE → Except E B
  /-- Method `SendMessages` of `sarama.SyncProducer` -/
  sendMessages : P → List (Option (ProducerMessage B)) → P × Option E
  /-- Function `processRoomEvent(ctx, db, ow, input)` -/
  processRoomEvent :
    Ctx → D → OutputRoomEventWriter P B OE E → RE → Producer P B → (D × Producer P B) × Option E
  /-- Function `processInviteEvent(ctx, db, ow, input)` -/
  processInviteEvent :
    Ctx → D → OutputRoomEventWriter P B OE E → IE → Producer P B → (D × Producer P B) × Option E

/-- The struct `RoomserverInputAPI`. -/
structure RoomserverInputAPI (D P B : Type) where
  DB : D
  Producer : Producer P B
  OutputRoomEventTopic : String
  mutex : Bool

/-- The struct `api.InputRoomEventsRequest`: the two slices the code ranges over. -/
structure InputRoomEventsRequest (RE IE : Type) where
  InputRoomEvents : List RE
  InputInviteEvents : List IE

section Defs

variable {Ctx D P B RE IE OE E : Type}

/-! ## WriteOutputEvents -/

/-- The call `r.Producer.SendMessages(messages)`, recorded. -/
def SendMessages (deps : Deps Ctx D P B RE IE OE E) (p : Producer P B)
    (messages : List (Option (ProducerMessage B))) : Producer P B × Option E :=
  let res := deps.sendMessages p.conn messages
  ({ conn := res.1, sent := p.sent ++ [messages] }, res.2)

/-- The loop `for i := range updates` of `WriteOutputEvents`, from index `i`
on, `rest` being `updates[i:]`: the first encoding error is returned, else
`messages[i]` is set. -/
def fillMessages (deps : Deps Ctx D P B RE IE OE E) (topic roomID : String) :
    List OE → Nat → List (Option (ProducerMessage B)) →
      Except E (List (Option (ProducerMessage B)))
  | [], _, messages => .ok messages
  | u :: rest, i, messages =>
    match deps.marshal u with
    | .error err => .error err
    | .ok value =>
      fillMessages deps topic roomID rest (i + 1)
        (messages.set i (some { Topic := topic, Key := roomID, Value := value }))

/-- The method `WriteOutputEvents(roomID, updates)`, on the producer state and
the topic of the receiver. -/
def WriteOutputEvents (deps : Deps Ctx D P B RE IE OE E) (topic : String) :
    OutputRoomEventWriter P B OE E :=
  fun roomID updates p =>
    match fillMessages deps topic roomID updates 0 (List.replicate updates.length none) with
    | .error err => (p, some err)
    | .ok messages => SendMessages deps p messages

/-! ## InputRoomEvents -/

/-- Which processor an invocation went to, and on which event. -/
inductive Call (RE IE : Type) where
  | room (e : RE)
  | invite (e : IE)
deriving DecidableEq, Repr

/-- One processor invocation as a spy on the two processors sees it: the
context and event it was given, whether `r.mutex` was held at that moment,
and the error it returned. -/
structure Invocation (Ctx RE IE E : Type) where
  ctx : Ctx
  call : Call RE IE
  mutexHeld : Bool
  err : Option E
deriving DecidableEq, Repr

/-- The state the processors act on: `r.DB` and, through the writer, `r.Producer`. -/
abbrev Store (D P B : Type) := D × Producer P B

/-- The call `processRoomEvent(ctx, r.DB, r, input)`: the receiver is passed as
the `OutputRoomEventWriter`. -/
def runRoomEvent (deps : Deps Ctx D P B RE IE OE E) (ctx : Ctx) (topic : String)
    (s : Store D P B) (e : RE) : Store D P B × Option E :=
  deps.processRoomEvent ctx s.1 (WriteOutputEvents deps topic) e s.2

/-- The call `processInviteEvent(ctx, r.DB, r, input)`. -/
def runInviteEvent (deps : Deps Ctx D P B RE IE OE E) (ctx : Ctx) (topic : String)
    (s : Store D P B) (e : IE) : Store D P B × Option E :=
  deps.processInviteEvent ctx s.1 (WriteOutputEvents deps topic) e s.2

/-- What a loop of `InputRoomEvents` leaves behind: the receiver, the processor
invocations it made, in order, and the error it stopped on. -/
structure LoopResult (Ctx D P B RE IE E : Type) where
  api : RoomserverInputAPI D P B
  calls : List (Invocation Ctx RE IE E)
  err : Option E

/-- The loop `for i := range request.InputRoomEvents`: it returns at the first
error of `processRoomEvent`. -/
def roomEventsLoop (deps : Deps Ctx D P B RE IE OE E) (ctx : Ctx) :
    List RE → RoomserverInputAPI D P B → LoopResult Ctx D P B RE IE E
  | [], r => { api := r, calls := [], err := none }
  | e :: rest, r =>
    let res := runRoomEvent deps ctx r.OutputRoomEventTopic (r.DB, r.Producer) e
    let r1 : RoomserverInputAPI D P B := { r with DB := res.1.1, Producer := res.1.2 }
    let inv : Invocation Ctx RE IE E :=
      { ctx := ctx, call := .room e, mutexHeld := r.mutex, err := res.2 }
    match res.2 with
    | some err => { api := r1, calls := [inv], err := some err }
    | none =>
      let out := roomEventsLoop deps ctx rest r1
      { api := out.api, calls := inv :: out.calls, err := out.err }

/-- The loop `for i := range request.InputInviteEvents`: it returns at the first
error of `processInviteEvent`. -/
def inviteEventsLoop (deps : Deps Ctx D P B RE IE OE E) (ctx : Ctx) :
    List IE → RoomserverInputAPI D P B → LoopResult Ctx D P B RE IE E
  | [], r => { api := r, calls := [], err := none }
  | e :: rest, r =>
    let res := runInviteEvent deps ctx r.OutputRoomEventTopic (r.DB, r.Producer) e
    let r1 : RoomserverInputAPI D P B := { r with DB := res.1.1, Producer := res.1.2 }
    let inv : Invocation Ctx RE IE E :=
      { ctx := ctx, call := .invite e, mutexHeld := r.mutex, err := res.2 }
    match res.2 with
    | some err => { api := r1, calls := [inv], err := some err }
    | none =>
      let out := inviteEventsLoop deps ctx rest r1
      { api := out.api, calls := inv :: out.calls, err := out.err }

/-- The call `r.mutex.Lock()` of a sequential caller: it returns only when the
mutex is free. -/
def Lock (r : RoomserverInputAPI D P B) : Option (RoomserverInputAPI D P B) :=
  if r.mutex then none else some { r with mutex := true }

/-- The call `r.mutex.Unlock()`. -/
def Unlock (r : RoomserverInputAPI D P B) : RoomserverInputAPI D P B :=
  { r with mutex := false }

/-- What a call of `InputRoomEvents` leaves behind: the receiver, the object
behind the `response` pointer, the returned error, and the processor
invocations made, in order. -/
structure CallResult (Ctx D P B RE IE E Resp : Type) where
  api : RoomserverInputAPI D P B
  response : Resp
  err : Option E
  calls : List (Invocation Ctx RE IE E)

/-- The method `InputRoomEvents(ctx, request, response)`. The deferred `Unlock`
runs on each of the three return paths. -/
def InputRoomEvents {Resp : Type} (deps : Deps Ctx D P B RE IE OE E) (ctx : Ctx)
    (request : InputRoomEventsRequest RE IE) (response : Resp)
    (r : RoomserverInputAPI D P B) : Option (CallResult Ctx D P B RE IE E Resp) :=
  match Lock r with
  | none => none
  | some r1 =>
    let rooms := roomEventsLoop deps ctx request.InputRoomEvents r1
    match rooms.err with
    | some err =>
      some { api := Unlock rooms.api, response := response, err := some err,
             calls := rooms.calls }
    | none =>
      let invites := inviteEventsLoop deps ctx request.InputInviteEvents rooms.api
      some { api := Unlock invites.api, response := response, err := invites.err,
             calls := rooms.calls ++ invites.calls }

/-- The store after the room-event processor has run on each event of `es` in
turn, starting from `s`. -/
def storeAfterRoomEvents (deps : Deps Ctx D P B RE IE OE E) (ctx : Ctx) (topic : String)
    (s : Store D P B) (es : List RE) : Store D P B :=
  es.foldl (fun st e => (runRoomEvent deps ctx topic st e).1) s

/-- The store after the invite-event processor has run on each event of `es`
in turn, starting from `s`. -/
def storeAfterInviteEvents (deps : Deps Ctx D P B RE IE OE E) (ctx : Ctx) (topic : String)
    (s : Store D P B) (es : List IE) : Store D P B :=
  es.foldl (fun st e => (runInviteEvent deps ctx topic st e).1) s

/-- The error the room-event processor returns on `es[i]` when it is run on
`es[0]`, ..., `es[i]` in turn from store `s` (`none` also when there is no
`es[i]`). -/
def roomErrAt (deps : Deps Ctx D P B RE IE OE E) (ctx : Ctx) (topic : String)
    (s : Store D P B) (es : List RE) (i : Nat) : Option E :=
  match es[i]? with
  | none => none
  | some e => (runRoomEvent deps ctx topic (storeAfterRoomEvents deps ctx topic s (es.take i)) e).2

/-- The error the invite-event processor returns on `es[i]` when it is run on
`es[0]`, ..., `es[i]` in turn from store `s` (`none` also when there is no
`es[i]`). -/
def inviteErrAt (deps : Deps Ctx D P B RE IE OE E) (ctx : Ctx) (topic : String)
    (s : Store D P B) (es : List IE) (i : Nat) : Option E :=
  match es[i]? with
  | none => none
  | some e =>
    (runInviteEvent deps ctx topic (storeAfterInviteEvents deps ctx topic s (es.take i)) e).2

/-! ## Concurrent callers

Several goroutines call `InputRoomEvents` on the same receiver. A scheduler
picks which caller moves next; a caller moves by one processor invocation at
a time. A caller at `r.mutex.Lock()` moves only when the mutex is free. -/

/-- Where a call of `InputRoomEvents` stands. -/
inductive Pc (RE IE E : Type) where
  /-- Before `r.mutex.Lock()` has returned -/
  | waiting
  /-- In the loop over room events, with these events still to process -/
  | rooms (rest : List RE)
  /-- In the loop over invite events, with these events still to process -/
  | invites (rest : List IE)
  /-- After the return (and the deferred `Unlock`) -/
  | returned (err : Option E)

/-- One concurrent call: its arguments and where it stands. -/
structure Caller (Ctx RE IE E : Type) where
  ctx : Ctx
  request : InputRoomEventsRequest RE IE
  pc : Pc RE IE E

/-- The shared receiver, the callers by number, and the processor invocations
made so far, each with the number of the caller that made it. -/
structure System (Ctx D P B RE IE E : Type) where
  api : RoomserverInputAPI D P B
  callers : Nat → Caller Ctx RE IE E
  trace : List (Nat × Invocation Ctx RE IE E)

/-- Caller `t` with its position replaced. -/
def System.setPc (sys : System Ctx D P B RE IE E) (t : Nat) (pc : Pc RE IE E) :
    Nat → Caller Ctx RE IE E :=
  Function.update sys.callers t { sys.callers t with pc := pc }

/-- One move of caller `t`. A caller that is blocked at `Lock`, or has
returned, leaves the system as it is. -/
def System.step (deps : Deps Ctx D P B RE IE OE E) (t : Nat)
    (sys : System Ctx D P B RE IE E) : System Ctx D P B RE IE E :=
  let c := sys.callers t
  let r := sys.api
  match c.pc with
  | .waiting =>
    match Lock r with
    | none => sys
    | some r1 => { sys with api := r1, callers := sys.setPc t (.rooms c.request.InputRoomEvents) }
  | .rooms [] => { sys with callers := sys.setPc t (.invites c.request.InputInviteEvents) }
  | .rooms (e :: rest) =>
    let res := runRoomEvent deps c.ctx r.OutputRoomEventTopic (r.DB, r.Producer) e
    let r1 : RoomserverInputAPI D P B := { r with DB := res.1.1, Producer := res.1.2 }
    let inv : Invocation Ctx RE IE E :=
      { ctx := c.ctx, call := .room e, mutexHeld := r.mutex, err := res.2 }
    match res.2 with
    | some err =>
      { api := Unlock r1, callers := sys.setPc t (.returned (some err)),
        trace := sys.trace ++ [(t, inv)] }
    | none =>
      { api := r1, callers := sys.setPc t (.rooms rest), trace := sys.trace ++ [(t, inv)] }
  | .invites [] => { sys with api := Unlock r, callers := sys.setPc t (.returned none) }
  | .invites (e :: rest) =>
    let res := runInviteEvent deps c.ctx r.OutputRoomEventTopic (r.DB, r.Producer) e
    let r1 : RoomserverInputAPI D P B := { r with DB := res.1.1, Producer := res.1.2 }
    let inv : Invocation Ctx RE IE E :=
      { ctx := c.ctx, call := .invite e, mutexHeld := r.mutex, err := res.2 }
    match res.2 with
    | some err =>
      { api := Unlock r1, callers := sys.setPc t (.returned (some err)),
        trace := sys.trace ++ [(t, inv)] }
    | none =>
      { api := r1, callers := sys.setPc t (.invites rest), trace := sys.trace ++ [(t, inv)] }
  | .returned _ => sys

/-- The system after the callers have moved in the order of `schedule`. -/
def System.run (deps : Deps Ctx D P B RE IE OE E) (schedule : List Nat)
    (sys : System Ctx D P B RE IE E) : System Ctx D P B RE IE E :=
  schedule.foldl (fun s t => System.step deps t s) sys

/-- The system in which every call has been submitted and none has got past
`Lock` yet. -/
def System.init (r : RoomserverInputAPI D P B)
    (batches : Nat → Ctx × InputRoomEventsRequest RE IE) : System Ctx D P B RE IE E :=
  { api := r,
    callers := fun t => { ctx := (batches t).1, request := (batches t).2, pc := .waiting },
    trace := [] }

/-- The numbers of the callers of the invocations of a trace, in order. -/
def callerIds (trace : List (Nat × Invocation Ctx RE IE E)) : List Nat :=
  trace.map Prod.fst

/-- Whether a call is between its `Lock` and its return. -/
def Pc.active : Pc RE IE E → Bool
  | .rooms _ => true
  | .invites _ => true
  | _ => false

/-- In the list `ids` of caller numbers, every entry of caller `a` comes before
every entry of caller `b`: no `b` is followed, however far, by an `a`. -/
def AllBefore (a b : Nat) (ids : List Nat) : Prop :=
  ids.Pairwise (fun x y => ¬ (x = b ∧ y = a))

/-- What holds of every reachable system: a caller still at `Lock` has made no
invocation; a caller past `Lock` implies the mutex is held, and there is at most
one such caller; no other caller has an invocation after one of that caller;
and the invocations of any two callers are not interleaved. -/
structure Inv (sys : System Ctx D P B RE IE E) : Prop where
  waiting_fresh : ∀ t, (sys.callers t).pc = .waiting → t ∉ callerIds sys.trace
  active_locked : ∀ t, (sys.callers t).pc.active = true → sys.api.mutex = true
  active_unique : ∀ t u, (sys.callers t).pc.active = true →
    (sys.callers u).pc.active = true → t = u
  active_last : ∀ h, (sys.callers h).pc.active = true → ∀ b, b ≠ h →
    AllBefore b h (callerIds sys.trace)
  separated : ∀ a b, a ≠ b →
    AllBefore a b (callerIds sys.trace) ∨ AllBefore b a (callerIds sys.trace)

/-- The system after caller `t` has made the invocations `calls`, left the
receiver as `api` with the mutex still held, and returned `err`. -/
def System.finish (sys : System Ctx D P B RE IE E) (t : Nat) (api : RoomserverInputAPI D P B)
    (err : Option E) (calls : List (Invocation Ctx RE IE E)) : System Ctx D P B RE IE E :=
  { api := Unlock api, callers := sys.setPc t (.returned err),
    trace := sys.trace ++ calls.map (fun inv => (t, inv)) }

end Defs

/-! ## The response and the context -/

/-- Modelled from the spec: the record `BatchOutcome` that the response of
`InputRoomEvents` is said to carry (the type `api.InputRoomEventsResponse` is
declared outside the source file): the number of room events and of invite
events committed, and the index and error of the first failing event. -/
structure BatchOutcome (E : Type) where
  roomEventsCommitted : Nat
  inviteEventsCommitted : Nat
  failure : Option (Nat × E)
deriving DecidableEq, Repr

/-- The part of a `context.Context` that cancellation is about: whether
`ctx.Err()` is non-nil. -/
structure Context where
  cancelled : Bool
deriving DecidableEq, Repr

/-! ## A concrete instance

Room, invite and output events are numbers; event `0` is the one the
processors reject and the encoder cannot encode. -/

/-- A set of collaborators: the encoder fails on `0`; the producer accepts every
send; the room-event processor rejects event `0` with error `7`, and otherwise
commits the event to the database and publishes it for room `"!r1"`; the
invite-event processor rejects event `0` with error `9`. None looks at the
context. -/
def demoDeps (Ctx : Type) : Deps Ctx (List Nat) Unit Nat Nat Nat Nat Nat where
  marshal := fun u => if u = 0 then .error 5 else .ok (u + 100)
  sendMessages := fun p _ => (p, none)
  processRoomEvent := fun _ db ow e p =>
    if e = 0 then ((db, p), some 7)
    else
      let w := ow "!r1" [e] p
      ((db ++ [e], w.1), w.2)
  processInviteEvent := fun _ db ow e p =>
    if e = 0 then ((db, p), some 9)
    else
      let w := ow "!r1" [e + 1000] p
      ((db ++ [e + 1000], w.1), w.2)

/-- A receiver with an empty database, nothing sent, and the mutex free. -/
def demoAPI : RoomserverInputAPI (List Nat) Unit Nat :=
  { DB := [], Producer := { conn := (), sent := [] }, OutputRoomEventTopic := "roomevents",
    mutex := false }

/-- A batch whose second room event is rejected: room events `[1, 0, 2]` and
one invite event `3`. -/
def demoRequest : InputRoomEventsRequest Nat Nat :=
  { InputRoomEvents := [1, 0, 2], InputInviteEvents := [3] }

/-- A batch whose room events are all accepted and whose second invite event is
rejected: room events `[1, 2]`, invite events `[3, 0, 4]`. -/
def demoRequestInvites : InputRoomEventsRequest Nat Nat :=
  { InputRoomEvents := [1, 2], InputInviteEvents := [3, 0, 4] }

/-- Two concurrent calls: caller `0` submits `demoRequest`, caller `1` submits
`demoRequestInvites`; every other caller submits the empty batch. -/
def demoBatches : Nat → Unit × InputRoomEventsRequest Nat Nat :=
  fun t =>
    if t = 0 then ((), demoRequest)
    else if t = 1 then ((), demoRequestInvites)
    else ((), { InputRoomEvents := [], InputInviteEvents := [] })

/-- A schedule that alternates between callers `0` and `1` and then lets
caller `1` run. -/
def demoSchedule : List Nat := [0, 1, 0, 1, 0, 1, 1, 1, 1, 1, 1, 1]

/-! ## WriteOutputEvents: lemmas -/

section WriteLemmas

variable {Ctx D P B RE IE OE E : Type}

theorem fillMessages_ok (deps : Deps Ctx D P B RE IE OE E) (topic roomID : String) :
    ∀ (rest : List OE) (i : Nat) (messages : List (Option (ProducerMessage B))),
      messages.length = i + rest.length →
      (∀ u ∈ rest, ∃ v, deps.marshal u = .ok v) →
      ∃ out, fillMessages deps topic roomID rest i messages = .ok out ∧
        out.length = messages.length ∧
        (∀ j, j < i → out[j]? = messages[j]?) ∧
        (∀ j (hj : j < rest.length), ∃ v, deps.marshal rest[j] = .ok v ∧
          out[i + j]? = some (some { Topic := topic, Key := roomID, Value := v })) := by
  intro rest
  induction rest with
  | nil =>
    intro i messages _ _
    exact ⟨messages, rfl, rfl, fun _ _ => rfl, fun j hj => absurd hj (by simp)⟩
  | cons u rest ih =>
    intro i messages hlen hall
    obtain ⟨v, hv⟩ := hall u (List.mem_cons_self _ _)
    have hlen1 : (messages.set i
        (some { Topic := topic, Key := roomID, Value := v })).length = (i + 1) + rest.length := by
      simp [hlen]; omega
    obtain ⟨out, hout, holen, hpre, hpost⟩ :=
      ih (i + 1) _ hlen1 (fun w hw => hall w (List.mem_cons_of_mem _ hw))
    refine ⟨out, ?_, ?_, ?_, ?_⟩
    · simp only [fillMessages, hv]; exact hout
    · simpa using holen
    · intro j hj
      rw [hpre j (by omega), List.getElem?_set_ne (by omega)]
    · intro j hj
      cases j with
      | zero =>
        refine ⟨v, by simpa using hv, ?_⟩
        have hi : i < messages.length := by simp [hlen]
        rw [Nat.add_zero, hpre i (by omega), List.getElem?_set_self hi]
      | succ j =>
        obtain ⟨w, hw, hget⟩ := hpost j (by simpa using hj)
        refine ⟨w, by simpa using hw, ?_⟩
        have : i + (j + 1) = i + 1 + j := by omega
        rw [this]; exact hget

theorem fillMessages_ok_inv (deps : Deps Ctx D P B RE IE OE E) (topic roomID : String) :
    ∀ (rest : List OE) (i : Nat) (messages out : List (Option (ProducerMessage B))),
      fillMessages deps topic roomID rest i messages = .ok out →
      ∀ u ∈ rest, ∃ v, deps.marshal u = .ok v := by
  intro rest
  induction rest with
  | nil => intro _ _ _ _ u hu; simp at hu
  | cons u rest ih =>
    intro i messages out h w hw
    cases hm : deps.marshal u with
    | error err => simp [fillMessages, hm] at h
    | ok v =>
      simp only [fillMessages, hm] at h
      rcases List.mem_cons.mp hw with rfl | hw
      · exact ⟨v, hm⟩
      · exact ih _ _ _ h w hw

theorem fillMessages_error (deps : Deps Ctx D P B RE IE OE E) (topic roomID : String) :
    ∀ (rest : List OE) (k : Nat) (hk : k < rest.length) (err : E) (i : Nat)
      (messages : List (Option (ProducerMessage B))),
      (∀ j (hj : j < k), ∃ v, deps.marshal (rest[j]) = .ok v) →
      deps.marshal rest[k] = .error err →
      fillMessages deps topic roomID rest i messages = .error err := by
  intro rest
  induction rest with
  | nil => intro k hk; simp at hk
  | cons u rest ih =>
    intro k hk err i messages hok hfail
    cases k with
    | zero =>
      have : deps.marshal u = .error err := by simpa using hfail
      simp [fillMessages, this]
    | succ k =>
      obtain ⟨v, hv⟩ := hok 0 (by omega)
      have hv1 : deps.marshal u = .ok v := by simpa using hv
      simp only [fillMessages, hv1]
      refine ih k (by simpa using hk) err _ _ ?_ (by simpa using hfail)
      intro j hj
      obtain ⟨w, hw⟩ := hok (j + 1) (by omega)
      exact ⟨w, by simpa using hw⟩

end WriteLemmas

/-! ## InputRoomEvents: lemmas on the two loops -/

section LoopLemmas

variable {Ctx D P B RE IE OE E : Type}

theorem roomErrAt_zero (deps : Deps Ctx D P B RE IE OE E) (ctx : Ctx) (topic : String)
    (s : Store D P B) (e : RE) (es : List RE) :
    roomErrAt deps ctx topic s (e :: es) 0 = (runRoomEvent deps ctx topic s e).2 := by
  simp [roomErrAt, storeAfterRoomEvents]

theorem roomErrAt_succ (deps : Deps Ctx D P B RE IE OE E) (ctx : Ctx) (topic : String)
    (s : Store D P B) (e : RE) (es : List RE) (i : Nat) :
    roomErrAt deps ctx topic s (e :: es) (i + 1)
      = roomErrAt deps ctx topic (runRoomEvent deps ctx topic s e).1 es i := by
  simp [roomErrAt, storeAfterRoomEvents]

theorem storeAfterRoomEvents_cons (deps : Deps Ctx D P B RE IE OE E) (ctx : Ctx)
    (topic : String) (s : Store D P B) (e : RE) (es : List RE) :
    storeAfterRoomEvents deps ctx topic s (e :: es)
      = storeAfterRoomEvents deps ctx topic (runRoomEvent deps ctx topic s e).1 es := by
  simp [storeAfterRoomEvents]

/-- The room-event loop keeps the mutex and the topic, and every invocation it
makes carries the context of the call and the state of the mutex. -/
theorem roomEventsLoop_frame (deps : Deps Ctx D P B RE IE OE E) (ctx : Ctx) :
    ∀ (es : List RE) (r : RoomserverInputAPI D P B),
      (roomEventsLoop deps ctx es r).api.mutex = r.mutex ∧
      (roomEventsLoop deps ctx es r).api.OutputRoomEventTopic = r.OutputRoomEventTopic ∧
      ∀ inv ∈ (roomEventsLoop deps ctx es r).calls,
        inv.mutexHeld = r.mutex ∧ inv.ctx = ctx ∧ ∃ e ∈ es, inv.call = Call.room e := by
  intro es
  induction es with
  | nil => intro r; simp [roomEventsLoop]
  | cons e rest ih =>
    intro r
    cases hres : (runRoomEvent deps ctx r.OutputRoomEventTopic (r.DB, r.Producer) e).2 with
    | some err => simp [roomEventsLoop, hres]
    | none =>
      obtain ⟨h1, h2, h3⟩ := ih { r with
        DB := (runRoomEvent deps ctx r.OutputRoomEventTopic (r.DB, r.Producer) e).1.1,
        Producer := (runRoomEvent deps ctx r.OutputRoomEventTopic (r.DB, r.Producer) e).1.2 }
      simp only [roomEventsLoop, hres]
      refine ⟨h1, h2, ?_⟩
      intro inv hinv
      rcases List.mem_cons.mp hinv with rfl | hinv
      · exact ⟨rfl, rfl, e, List.mem_cons_self _ _, rfl⟩
      · obtain ⟨a, b, x, hx, c⟩ := h3 inv hinv
        exact ⟨a, b, x, List.mem_cons_of_mem _ hx, c⟩

/-- The room-event loop when the processor first fails at index `k`. -/
theorem roomEventsLoop_fail (deps : Deps Ctx D P B RE IE OE E) (ctx : Ctx) :
    ∀ (es : List RE) (r : RoomserverInputAPI D P B) (k : Nat) (err : E),
      (∀ i, i < k →
        roomErrAt deps ctx r.OutputRoomEventTopic (r.DB, r.Producer) es i = none) →
      roomErrAt deps ctx r.OutputRoomEventTopic (r.DB, r.Producer) es k = some err →
      (roomEventsLoop deps ctx es r).err = some err ∧
      (roomEventsLoop deps ctx es r).calls
        = (es.take k).map (fun e => (⟨ctx, .room e, r.mutex, none⟩ : Invocation Ctx RE IE E))
          ++ ((es.drop k).take 1).map (fun e =>
              (⟨ctx, .room e, r.mutex, some err⟩ : Invocation Ctx RE IE E)) ∧
      ((roomEventsLoop deps ctx es r).api.DB, (roomEventsLoop deps ctx es r).api.Producer)
        = storeAfterRoomEvents deps ctx r.OutputRoomEventTopic (r.DB, r.Producer)
            (es.take (k + 1)) := by
  intro es
  induction es with
  | nil => intro r k err _ hfail; simp [roomErrAt] at hfail
  | cons e rest ih =>
    intro r k err hok hfail
    cases k with
    | zero =>
      rw [roomErrAt_zero] at hfail
      simp [roomEventsLoop, hfail, storeAfterRoomEvents]
    | succ k =>
      have h0 := hok 0 (by omega)
      rw [roomErrAt_zero] at h0
      rw [roomErrAt_succ] at hfail
      have hok1 : ∀ i, i < k → roomErrAt deps ctx r.OutputRoomEventTopic
          (runRoomEvent deps ctx r.OutputRoomEventTopic (r.DB, r.Producer) e).1 rest i = none := by
        intro i hi
        have := hok (i + 1) (by omega)
        rwa [roomErrAt_succ] at this
      obtain ⟨h1, h2, h3⟩ := ih { r with
        DB := (runRoomEvent deps ctx r.OutputRoomEventTopic (r.DB, r.Producer) e).1.1,
        Producer := (runRoomEvent deps ctx r.OutputRoomEventTopic (r.DB, r.Producer) e).1.2 }
        k err hok1 hfail
      simp only [roomEventsLoop, h0]
      refine ⟨h1, ?_, ?_⟩
      · rw [h2]; simp
      · rw [h3]; simp [storeAfterRoomEvents]

/-- The room-event loop when the processor fails on no event. -/
theorem roomEventsLoop_ok (deps : Deps Ctx D P B RE IE OE E) (ctx : Ctx) :
    ∀ (es : List RE) (r : RoomserverInputAPI D P B),
      (∀ i, roomErrAt deps ctx r.OutputRoomEventTopic (r.DB, r.Producer) es i = none) →
      (roomEventsLoop deps ctx es r).err = none ∧
      (roomEventsLoop deps ctx es r).calls
        = es.map (fun e => (⟨ctx, .room e, r.mutex, none⟩ : Invocation Ctx RE IE E)) ∧
      ((roomEventsLoop deps ctx es r).api.DB, (roomEventsLoop deps ctx es r).api.Producer)
        = storeAfterRoomEvents deps ctx r.OutputRoomEventTopic (r.DB, r.Producer) es := by
  intro es
  induction es with
  | nil => intro r _; simp [roomEventsLoop, storeAfterRoomEvents]
  | cons e rest ih =>
    intro r hok
    have h0 := hok 0
    rw [roomErrAt_zero] at h0
    have hok1 : ∀ i, roomErrAt deps ctx r.OutputRoomEventTopic
        (runRoomEvent deps ctx r.OutputRoomEventTopic (r.DB, r.Producer) e).1 rest i = none := by
      intro i
      have := hok (i + 1)
      rwa [roomErrAt_succ] at this
    obtain ⟨h1, h2, h3⟩ := ih { r with
      DB := (runRoomEvent deps ctx r.OutputRoomEventTopic (r.DB, r.Producer) e).1.1,
      Producer := (runRoomEvent deps ctx r.OutputRoomEventTopic (r.DB, r.Producer) e).1.2 }
      hok1
    simp only [roomEventsLoop, h0]
    refine ⟨h1, ?_, ?_⟩
    · rw [h2]; simp
    · rw [h3]; simp [storeAfterRoomEvents]

/-- The shape of a run of the room-event loop, whatever the processor does: the
events invoked are a prefix of the list; every invocation but the last
returned nil; the loop returns the error of the last invocation; and when it
returns nil every event was invoked. -/
theorem roomEventsLoop_shape (deps : Deps Ctx D P B RE IE OE E) (ctx : Ctx) :
    ∀ (es : List RE) (r : RoomserverInputAPI D P B),
      (roomEventsLoop deps ctx es r).calls.map (fun inv => inv.call)
        = (es.take (roomEventsLoop deps ctx es r).calls.length).map Call.room ∧
      (∀ inv ∈ (roomEventsLoop deps ctx es r).calls.dropLast, inv.err = none) ∧
      ((roomEventsLoop deps ctx es r).err = none →
        (roomEventsLoop deps ctx es r).calls.length = es.length ∧
        ∀ inv ∈ (roomEventsLoop deps ctx es r).calls, inv.err = none) ∧
      (∀ err, (roomEventsLoop deps ctx es r).err = some err →
        ∃ inv, (roomEventsLoop deps ctx es r).calls.getLast? = some inv ∧
          inv.err = some err) := by
  intro es
  induction es with
  | nil => intro r; simp [roomEventsLoop]
  | cons e rest ih =>
    intro r
    cases hres : (runRoomEvent deps ctx r.OutputRoomEventTopic (r.DB, r.Producer) e).2 with
    | some err => simp [roomEventsLoop, hres]
    | none =>
      obtain ⟨h1, h2, h3, h4⟩ := ih { r with
        DB := (runRoomEvent deps ctx r.OutputRoomEventTopic (r.DB, r.Producer) e).1.1,
        Producer := (runRoomEvent deps ctx r.OutputRoomEventTopic (r.DB, r.Producer) e).1.2 }
      simp only [roomEventsLoop, hres]
      refine ⟨by simp [h1], ?_, ?_, ?_⟩
      · intro inv hinv
        cases hc : (roomEventsLoop deps ctx rest { r with
            DB := (runRoomEvent deps ctx r.OutputRoomEventTopic (r.DB, r.Producer) e).1.1,
            Producer := (runRoomEvent deps ctx r.OutputRoomEventTopic
              (r.DB, r.Producer) e).1.2 }).calls with
        | nil => simp [hc] at hinv
        | cons c cs =>
          rw [hc, List.dropLast_cons₂] at hinv
          rcases List.mem_cons.mp hinv with rfl | hinv
          · rfl
          · exact h2 inv (by rw [hc]; exact hinv)
      · intro hnone
        obtain ⟨ha, hb⟩ := h3 hnone
        refine ⟨by simp [ha], ?_⟩
        intro inv hinv
        rcases List.mem_cons.mp hinv with rfl | hinv
        · rfl
        · exact hb inv hinv
      · intro err herr
        obtain ⟨inv, hlast, hinv⟩ := h4 err herr
        refine ⟨inv, ?_, hinv⟩
        rw [List.getLast?_cons, hlast]; rfl

theorem inviteErrAt_zero (deps : Deps Ctx D P B RE IE OE E) (ctx : Ctx) (topic : String)
    (s : Store D P B) (e : IE) (es : List IE) :
    inviteErrAt deps ctx topic s (e :: es) 0 = (runInviteEvent deps ctx topic s e).2 := by
  simp [inviteErrAt, storeAfterInviteEvents]

theorem inviteErrAt_succ (deps : Deps Ctx D P B RE IE OE E) (ctx : Ctx) (topic : String)
    (s : Store D P B) (e : IE) (es : List IE) (i : Nat) :
    inviteErrAt deps ctx topic s (e :: es) (i + 1)
      = inviteErrAt deps ctx topic (runInviteEvent deps ctx topic s e).1 es i := by
  simp [inviteErrAt, storeAfterInviteEvents]

theorem storeAfterInviteEvents_cons (deps : Deps Ctx D P B RE IE OE E) (ctx : Ctx)
    (topic : String) (s : Store D P B) (e : IE) (es : List IE) :
    storeAfterInviteEvents deps ctx topic s (e :: es)
      = storeAfterInviteEvents deps ctx topic (runInviteEvent deps ctx topic s e).1 es := by
  simp [storeAfterInviteEvents]

/-- The invite-event loop keeps the mutex and the topic, and every invocation it
makes carries the context of the call and the state of the mutex. -/
theorem inviteEventsLoop_frame (deps : Deps Ctx D P B RE IE OE E) (ctx : Ctx) :
    ∀ (es : List IE) (r : RoomserverInputAPI D P B),
      (inviteEventsLoop deps ctx es r).api.mutex = r.mutex ∧
      (inviteEventsLoop deps ctx es r).api.OutputRoomEventTopic = r.OutputRoomEventTopic ∧
      ∀ inv ∈ (inviteEventsLoop deps ctx es r).calls,
        inv.mutexHeld = r.mutex ∧ inv.ctx = ctx ∧ ∃ e ∈ es, inv.call = Call.invite e := by
  intro es
  induction es with
  | nil => intro r; simp [inviteEventsLoop]
  | cons e rest ih =>
    intro r
    cases hres : (runInviteEvent deps ctx r.OutputRoomEventTopic (r.DB, r.Producer) e).2 with
    | some err => simp [inviteEventsLoop, hres]
    | none =>
      obtain ⟨h1, h2, h3⟩ := ih { r with
        DB := (runInviteEvent deps ctx r.OutputRoomEventTopic (r.DB, r.Producer) e).1.1,
        Producer := (runInviteEvent deps ctx r.OutputRoomEventTopic (r.DB, r.Producer) e).1.2 }
      simp only [inviteEventsLoop, hres]
      refine ⟨h1, h2, ?_⟩
      intro inv hinv
      rcases List.mem_cons.mp hinv with rfl | hinv
      · exact ⟨rfl, rfl, e, List.mem_cons_self _ _, rfl⟩
      · obtain ⟨a, b, x, hx, c⟩ := h3 inv hinv
        exact ⟨a, b, x, List.mem_cons_of_mem _ hx, c⟩

/-- The invite-event loop when the processor first fails at index `k`. -/
theorem inviteEventsLoop_fail (deps : Deps Ctx D P B RE IE OE E) (ctx : Ctx) :
    ∀ (es : List IE) (r : RoomserverInputAPI D P B) (k : Nat) (err : E),
      (∀ i, i < k →
        inviteErrAt deps ctx r.OutputRoomEventTopic (r.DB, r.Producer) es i = none) →
      inviteErrAt deps ctx r.OutputRoomEventTopic (r.DB, r.Producer) es k = some err →
      (inviteEventsLoop deps ctx es r).err = some err ∧
      (inviteEventsLoop deps ctx es r).calls
        = (es.take k).map (fun e => (⟨ctx, .invite e, r.mutex, none⟩ : Invocation Ctx RE IE E))
          ++ ((es.drop k).take 1).map (fun e =>
              (⟨ctx, .invite e, r.mutex, some err⟩ : Invocation Ctx RE IE E)) ∧
      ((inviteEventsLoop deps ctx es r).api.DB, (inviteEventsLoop deps ctx es r).api.Producer)
        = storeAfterInviteEvents deps ctx r.OutputRoomEventTopic (r.DB, r.Producer)
            (es.take (k + 1)) := by
  intro es
  induction es with
  | nil => intro r k err _ hfail; simp [inviteErrAt] at hfail
  | cons e rest ih =>
    intro r k err hok hfail
    cases k with
    | zero =>
      rw [inviteErrAt_zero] at hfail
      simp [inviteEventsLoop, hfail, storeAfterInviteEvents]
    | succ k =>
      have h0 := hok 0 (by omega)
      rw [inviteErrAt_zero] at h0
      rw [inviteErrAt_succ] at hfail
      have hok1 : ∀ i, i < k → inviteErrAt deps ctx r.OutputRoomEventTopic
          (runInviteEvent deps ctx r.OutputRoomEventTopic (r.DB, r.Producer) e).1 rest i = none := by
        intro i hi
        have := hok (i + 1) (by omega)
        rwa [inviteErrAt_succ] at this
      obtain ⟨h1, h2, h3⟩ := ih { r with
        DB := (runInviteEvent deps ctx r.OutputRoomEventTopic (r.DB, r.Producer) e).1.1,
        Producer := (runInviteEvent deps ctx r.OutputRoomEventTopic (r.DB, r.Producer) e).1.2 }
        k err hok1 hfail
      simp only [inviteEventsLoop, h0]
      refine ⟨h1, ?_, ?_⟩
      · rw [h2]; simp
      · rw [h3]; simp [storeAfterInviteEvents]

/-- The invite-event loop when the processor fails on no event. -/
theorem inviteEventsLoop_ok (deps : Deps Ctx D P B RE IE OE E) (ctx : Ctx) :
    ∀ (es : List IE) (r : RoomserverInputAPI D P B),
      (∀ i, inviteErrAt deps ctx r.OutputRoomEventTopic (r.DB, r.Producer) es i = none) →
      (inviteEventsLoop deps ctx es r).err = none ∧
      (inviteEventsLoop deps ctx es r).calls
        = es.map (fun e => (⟨ctx, .invite e, r.mutex, none⟩ : Invocation Ctx RE IE E)) ∧
      ((inviteEventsLoop deps ctx es r).api.DB, (inviteEventsLoop deps ctx es r).api.Producer)
        = storeAfterInviteEvents deps ctx r.OutputRoomEventTopic (r.DB, r.Producer) es := by
  intro es
  induction es with
  | nil => intro r _; simp [inviteEventsLoop, storeAfterInviteEvents]
  | cons e rest ih =>
    intro r hok
    have h0 := hok 0
    rw [inviteErrAt_zero] at h0
    have hok1 : ∀ i, inviteErrAt deps ctx r.OutputRoomEventTopic
        (runInviteEvent deps ctx r.OutputRoomEventTopic (r.DB, r.Producer) e).1 rest i = none := by
      intro i
      have := hok (i + 1)
      rwa [inviteErrAt_succ] at this
    obtain ⟨h1, h2, h3⟩ := ih { r with
      DB := (runInviteEvent deps ctx r.OutputRoomEventTopic (r.DB, r.Producer) e).1.1,
      Producer := (runInviteEvent deps ctx r.OutputRoomEventTopic (r.DB, r.Producer) e).1.2 }
      hok1
    simp only [inviteEventsLoop, h0]
    refine ⟨h1, ?_, ?_⟩
    · rw [h2]; simp
    · rw [h3]; simp [storeAfterInviteEvents]

/-- The shape of a run of the invite-event loop, whatever the processor does: the
events invoked are a prefix of the list; every invocation but the last
returned nil; the loop returns the error of the last invocation; and when it
returns nil every event was invoked. -/
theorem inviteEventsLoop_shape (deps : Deps Ctx D P B RE IE OE E) (ctx : Ctx) :
    ∀ (es : List IE) (r : RoomserverInputAPI D P B),
      (inviteEventsLoop deps ctx es r).calls.map (fun inv => inv.call)
        = (es.take (inviteEventsLoop deps ctx es r).calls.length).map Call.invite ∧
      (∀ inv ∈ (inviteEventsLoop deps ctx es r).calls.dropLast, inv.err = none) ∧
      ((inviteEventsLoop deps ctx es r).err = none →
        (inviteEventsLoop deps ctx es r).calls.length = es.length ∧
        ∀ inv ∈ (inviteEventsLoop deps ctx es r).calls, inv.err = none) ∧
      (∀ err, (inviteEventsLoop deps ctx es r).err = some err →
        ∃ inv, (inviteEventsLoop deps ctx es r).calls.getLast? = some inv ∧
          inv.err = some err) := by
  intro es
  induction es with
  | nil => intro r; simp [inviteEventsLoop]
  | cons e rest ih =>
    intro r
    cases hres : (runInviteEvent deps ctx r.OutputRoomEventTopic (r.DB, r.Producer) e).2 with
    | some err => simp [inviteEventsLoop, hres]
    | none =>
      obtain ⟨h1, h2, h3, h4⟩ := ih { r with
        DB := (runInviteEvent deps ctx r.OutputRoomEventTopic (r.DB, r.Producer) e).1.1,
        Producer := (runInviteEvent deps ctx r.OutputRoomEventTopic (r.DB, r.Producer) e).1.2 }
      simp only [inviteEventsLoop, hres]
      refine ⟨by simp [h1], ?_, ?_, ?_⟩
      · intro inv hinv
        cases hc : (inviteEventsLoop deps ctx rest { r with
            DB := (runInviteEvent deps ctx r.OutputRoomEventTopic (r.DB, r.Producer) e).1.1,
            Producer := (runInviteEvent deps ctx r.OutputRoomEventTopic
              (r.DB, r.Producer) e).1.2 }).calls with
        | nil => simp [hc] at hinv
        | cons c cs =>
          rw [hc, List.dropLast_cons₂] at hinv
          rcases List.mem_cons.mp hinv with rfl | hinv
          · rfl
          · exact h2 inv (by rw [hc]; exact hinv)
      · intro hnone
        obtain ⟨ha, hb⟩ := h3 hnone
        refine ⟨by simp [ha], ?_⟩
        intro inv hinv
        rcases List.mem_cons.mp hinv with rfl | hinv
        · rfl
        · exact hb inv hinv
      · intro err herr
        obtain ⟨inv, hlast, hinv⟩ := h4 err herr
        refine ⟨inv, ?_, hinv⟩
        rw [List.getLast?_cons, hlast]; rfl

theorem roomErrAt_lt (deps : Deps Ctx D P B RE IE OE E) (ctx : Ctx) (topic : String)
    (s : Store D P B) (es : List RE) (k : Nat) (err : E)
    (h : roomErrAt deps ctx topic s es k = some err) : k < es.length := by
  by_contra hk
  have : es[k]? = none := List.getElem?_eq_none (by omega)
  simp [roomErrAt, this] at h

theorem inviteErrAt_lt (deps : Deps Ctx D P B RE IE OE E) (ctx : Ctx) (topic : String)
    (s : Store D P B) (es : List IE) (k : Nat) (err : E)
    (h : inviteErrAt deps ctx topic s es k = some err) : k < es.length := by
  by_contra hk
  have : es[k]? = none := List.getElem?_eq_none (by omega)
  simp [inviteErrAt, this] at h

theorem take_succ_split {α : Type} (l : List α) (k : Nat) :
    l.take (k + 1) = l.take k ++ (l.drop k).take 1 := by
  rw [List.take_add]

/-- The call with the mutex free, when the room-event loop stops on an error. -/
theorem InputRoomEvents_of_room_err {Resp : Type} (deps : Deps Ctx D P B RE IE OE E)
    (ctx : Ctx) (request : InputRoomEventsRequest RE IE) (response : Resp)
    (r : RoomserverInputAPI D P B) (hfree : r.mutex = false) (err : E)
    (h : (roomEventsLoop deps ctx request.InputRoomEvents { r with mutex := true }).err
      = some err) :
    InputRoomEvents deps ctx request response r
      = some { api := Unlock (roomEventsLoop deps ctx request.InputRoomEvents
                 { r with mutex := true }).api,
               response := response, err := some err,
               calls := (roomEventsLoop deps ctx request.InputRoomEvents
                 { r with mutex := true }).calls } := by
  simp [InputRoomEvents, Lock, hfree, h]

/-- The call with the mutex free, when the room-event loop runs to its end. -/
theorem InputRoomEvents_of_room_ok {Resp : Type} (deps : Deps Ctx D P B RE IE OE E)
    (ctx : Ctx) (request : InputRoomEventsRequest RE IE) (response : Resp)
    (r : RoomserverInputAPI D P B) (hfree : r.mutex = false)
    (h : (roomEventsLoop deps ctx request.InputRoomEvents { r with mutex := true }).err
      = none) :
    InputRoomEvents deps ctx request response r
      = some { api := Unlock (inviteEventsLoop deps ctx request.InputInviteEvents
                 (roomEventsLoop deps ctx request.InputRoomEvents
                   { r with mutex := true }).api).api,
               response := response,
               err := (inviteEventsLoop deps ctx request.InputInviteEvents
                 (roomEventsLoop deps ctx request.InputRoomEvents
                   { r with mutex := true }).api).err,
               calls := (roomEventsLoop deps ctx request.InputRoomEvents
                   { r with mutex := true }).calls ++
                 (inviteEventsLoop deps ctx request.InputInviteEvents
                   (roomEventsLoop deps ctx request.InputRoomEvents
                     { r with mutex := true }).api).calls } := by
  simp [InputRoomEvents, Lock, hfree, h]

end LoopLemmas

/-! ## WriteOutputEvents: the producer contract -/

section WriteClaims

variable {Ctx D P B RE IE OE E : Type}

/-- C5: for every room identifier and every list of output events that all
encode successfully, `WriteOutputEvents` makes exactly one `SendMessages` call:
the record of calls grows by exactly one entry `msgs`; `msgs` has the length of
`updates`; its `i`-th entry is a (non-nil) message whose value is the encoding
of `updates[i]`; and the producer state and the returned error are exactly
those of that `SendMessages` call. -/
theorem WriteOutputEvents_sends_once (deps : Deps Ctx D P B RE IE OE E)
    (r : RoomserverInputAPI D P B) (roomID : String) (updates : List OE)
    (henc : ∀ u ∈ updates, ∃ v, deps.marshal u = .ok v) :
    ∃ msgs : List (Option (ProducerMessage B)),
      (WriteOutputEvents deps r.OutputRoomEventTopic roomID updates r.Producer).1.sent
          = r.Producer.sent ++ [msgs] ∧
      msgs.length = updates.length ∧
      (∀ i (hi : i < updates.length), ∃ v pm, deps.marshal updates[i] = .ok v ∧
        msgs[i]? = some (some pm) ∧ pm.Value = v) ∧
      (WriteOutputEvents deps r.OutputRoomEventTopic roomID updates r.Producer).1.conn
          = (deps.sendMessages r.Producer.conn msgs).1 ∧
      (WriteOutputEvents deps r.OutputRoomEventTopic roomID updates r.Producer).2
          = (deps.sendMessages r.Producer.conn msgs).2 := by
  obtain ⟨out, hout, hlen, -, hpost⟩ :=
    fillMessages_ok deps r.OutputRoomEventTopic roomID updates 0
      (List.replicate updates.length none) (by simp) henc
  refine ⟨out, ?_, ?_, ?_, ?_, ?_⟩
  · simp [WriteOutputEvents, hout, SendMessages]
  · simpa using hlen
  · intro i hi
    obtain ⟨v, hv, hget⟩ := hpost i hi
    exact ⟨v, _, hv, by simpa using hget, rfl⟩
  · simp [WriteOutputEvents, hout, SendMessages]
  · simp [WriteOutputEvents, hout, SendMessages]

/-- Witness for C5 on the concrete instance: two encodable output events. -/
theorem WriteOutputEvents_sends_once_witness :
    ∃ msgs : List (Option (ProducerMessage Nat)),
      (WriteOutputEvents (demoDeps Unit) demoAPI.OutputRoomEventTopic "!r1" [3, 4]
          demoAPI.Producer).1.sent = demoAPI.Producer.sent ++ [msgs] ∧
      msgs.length = [3, 4].length ∧
      (∀ i (hi : i < [3, 4].length), ∃ v pm, (demoDeps Unit).marshal [3, 4][i] = .ok v ∧
        msgs[i]? = some (some pm) ∧ pm.Value = v) ∧
      (WriteOutputEvents (demoDeps Unit) demoAPI.OutputRoomEventTopic "!r1" [3, 4]
          demoAPI.Producer).1.conn = ((demoDeps Unit).sendMessages demoAPI.Producer.conn msgs).1 ∧
      (WriteOutputEvents (demoDeps Unit) demoAPI.OutputRoomEventTopic "!r1" [3, 4]
          demoAPI.Producer).2 = ((demoDeps Unit).sendMessages demoAPI.Producer.conn msgs).2 :=
  WriteOutputEvents_sends_once (demoDeps Unit) demoAPI "!r1" [3, 4]
    (by intro u hu; simp at hu; rcases hu with rfl | rfl <;> simp [demoDeps])

/-- C6: for every room identifier and every list of output events, every
message of every `SendMessages` call that `WriteOutputEvents` makes is non-nil
and has its key equal to `roomID` and its topic equal to
`r.OutputRoomEventTopic`. -/
theorem WriteOutputEvents_key_topic (deps : Deps Ctx D P B RE IE OE E)
    (r : RoomserverInputAPI D P B) (roomID : String) (updates : List OE) :
    ∀ call ∈ ((WriteOutputEvents deps r.OutputRoomEventTopic roomID updates
        r.Producer).1.sent).drop r.Producer.sent.length,
      ∀ m ∈ call, ∃ pm : ProducerMessage B,
        m = some pm ∧ pm.Key = roomID ∧ pm.Topic = r.OutputRoomEventTopic := by
  intro call hcall m hm
  cases hfill : fillMessages deps r.OutputRoomEventTopic roomID updates 0
      (List.replicate updates.length none) with
  | error err => simp [WriteOutputEvents, hfill] at hcall
  | ok out =>
    have henc := fillMessages_ok_inv deps r.OutputRoomEventTopic roomID updates 0 _ _ hfill
    obtain ⟨out1, hout1, hlen, -, hpost⟩ :=
      fillMessages_ok deps r.OutputRoomEventTopic roomID updates 0
        (List.replicate updates.length none) (by simp) henc
    have hoo : out1 = out := by rw [hfill] at hout1; exact (Except.ok.inj hout1).symm
    subst hoo
    have hc : call = out1 := by simpa [WriteOutputEvents, hfill, SendMessages] using hcall
    subst hc
    obtain ⟨i, hi, rfl⟩ := List.getElem_of_mem hm
    have hi1 : i < updates.length := by simpa [hlen] using hi
    obtain ⟨v, -, hget⟩ := hpost i hi1
    rw [Nat.zero_add, List.getElem?_eq_getElem hi] at hget
    exact ⟨_, Option.some.inj hget, rfl, rfl⟩

/-- C7: `WriteOutputEvents` is all-or-nothing. If `updates[k]` is the first
event that fails to encode, with error `err`, the call returns `err` and the
producer is exactly as before: no `SendMessages` call is made, so no message,
not even one of `updates[0..k)`, is handed over. If every event encodes, a
single `SendMessages` call carries one message for each event. -/
theorem WriteOutputEvents_all_or_nothing (deps : Deps Ctx D P B RE IE OE E)
    (r : RoomserverInputAPI D P B) (roomID : String) (updates : List OE) :
    (∀ (k : Nat) (hk : k < updates.length) (err : E),
        (∀ j (hj : j < k), ∃ v, deps.marshal (updates[j]) = .ok v) →
        deps.marshal updates[k] = .error err →
        WriteOutputEvents deps r.OutputRoomEventTopic roomID updates r.Producer
          = (r.Producer, some err)) ∧
    ((∀ u ∈ updates, ∃ v, deps.marshal u = .ok v) →
        ∃ msgs : List (Option (ProducerMessage B)),
          (WriteOutputEvents deps r.OutputRoomEventTopic roomID updates r.Producer).1.sent
            = r.Producer.sent ++ [msgs] ∧
          msgs.length = updates.length ∧ ∀ m ∈ msgs, m ≠ none) := by
  constructor
  · intro k hk err hok hfail
    have h := fillMessages_error deps r.OutputRoomEventTopic roomID updates k hk err 0
      (List.replicate updates.length none) hok hfail
    simp [WriteOutputEvents, h]
  · intro henc
    obtain ⟨out, hout, hlen, -, hpost⟩ :=
      fillMessages_ok deps r.OutputRoomEventTopic roomID updates 0
        (List.replicate updates.length none) (by simp) henc
    refine ⟨out, by simp [WriteOutputEvents, hout, SendMessages], by simpa using hlen, ?_⟩
    intro m hm
    obtain ⟨i, hi, rfl⟩ := List.getElem_of_mem hm
    have hi1 : i < updates.length := by simpa [hlen] using hi
    obtain ⟨v, -, hget⟩ := hpost i hi1
    rw [Nat.zero_add, List.getElem?_eq_getElem hi] at hget
    rw [Option.some.inj hget]; simp

/-- Witness for C6 on the concrete instance: the first message of the one call
made for the output events `[3, 4]` of room `"!r1"`. -/
theorem WriteOutputEvents_key_topic_witness :
    ∃ pm : ProducerMessage Nat,
      some ({ Topic := "roomevents", Key := "!r1", Value := 103 } : ProducerMessage Nat)
        = some pm ∧ pm.Key = "!r1" ∧ pm.Topic = demoAPI.OutputRoomEventTopic :=
  WriteOutputEvents_key_topic (demoDeps Unit) demoAPI "!r1" [3, 4]
    [some { Topic := "roomevents", Key := "!r1", Value := 103 },
     some { Topic := "roomevents", Key := "!r1", Value := 104 }]
    (by simp [WriteOutputEvents, fillMessages, SendMessages, demoDeps, demoAPI])
    (some { Topic := "roomevents", Key := "!r1", Value := 103 })
    (by simp)

/-- Witness for C7 on the concrete instance: of the output events `[3, 0, 4]`
the second cannot be encoded; the call returns the encoding error `5` and
leaves the producer as it was, with nothing sent. -/
theorem WriteOutputEvents_all_or_nothing_witness :
    WriteOutputEvents (demoDeps Unit) demoAPI.OutputRoomEventTopic "!r1" [3, 0, 4]
        demoAPI.Producer = (demoAPI.Producer, some 5) ∧
    demoAPI.Producer.sent = [] :=
  ⟨(WriteOutputEvents_all_or_nothing (demoDeps Unit) demoAPI "!r1" [3, 0, 4]).1 1
      (by decide) 5 (by intro j hj; interval_cases j; exact ⟨103, rfl⟩) rfl, rfl⟩

end WriteClaims

/-! ## InputRoomEvents: the batch contract -/

section InputClaims

variable {Ctx D P B RE IE OE E : Type}

/-- C1: for every batch in which the room-event processor first fails at index
`k` (it returns nil on `e0..e(k-1)` run in turn, and `err` on `ek`), a call of
`InputRoomEvents` that gets the lock returns; its processor invocations are,
in order, exactly one room-event invocation for each of `e0..ek` and nothing
else (nothing on `e(k+1)..en`, no second attempt); the first `k` returned nil
and the last returned `err`; the store is the one reached by running the
processor on `e0..ek` in turn (nothing undone); and the call returns exactly
`err`. -/
theorem InputRoomEvents_fail_fast {Resp : Type} (deps : Deps Ctx D P B RE IE OE E)
    (ctx : Ctx) (request : InputRoomEventsRequest RE IE) (response : Resp)
    (r : RoomserverInputAPI D P B) (k : Nat) (err : E)
    (hfree : r.mutex = false)
    (hok : ∀ i, i < k → roomErrAt deps ctx r.OutputRoomEventTopic (r.DB, r.Producer)
      request.InputRoomEvents i = none)
    (hfail : roomErrAt deps ctx r.OutputRoomEventTopic (r.DB, r.Producer)
      request.InputRoomEvents k = some err) :
    ∃ out, InputRoomEvents deps ctx request response r = some out ∧
      out.calls.map (fun inv => inv.call)
        = (request.InputRoomEvents.take (k + 1)).map Call.room ∧
      out.calls.length = k + 1 ∧
      out.calls.map (fun inv => inv.err) = List.replicate k none ++ [some err] ∧
      (out.api.DB, out.api.Producer)
        = storeAfterRoomEvents deps ctx r.OutputRoomEventTopic (r.DB, r.Producer)
            (request.InputRoomEvents.take (k + 1)) ∧
      out.err = some err := by
  have hk := roomErrAt_lt deps ctx _ _ _ k err hfail
  obtain ⟨h1, h2, h3⟩ := roomEventsLoop_fail deps ctx request.InputRoomEvents
    { r with mutex := true } k err hok hfail
  have hd : ((request.InputRoomEvents.drop k).take 1).length = 1 := by
    simp [List.length_take, List.length_drop]; omega
  refine ⟨_, InputRoomEvents_of_room_err deps ctx request response r hfree err h1, ?_, ?_, ?_,
    ?_, rfl⟩
  · rw [take_succ_split request.InputRoomEvents k, h2]
    simp only [List.map_append, List.map_map]
    rfl
  · simp only [h2, List.length_append, List.length_map, hd, List.length_take]
    omega
  · simp only [h2, List.map_append, List.map_map]
    have ha : (List.map ((fun inv : Invocation Ctx RE IE E => inv.err) ∘
        fun e => (⟨ctx, .room e, true, none⟩ : Invocation Ctx RE IE E))
        (request.InputRoomEvents.take k)) = List.replicate k none := by
      rw [List.eq_replicate_iff]
      refine ⟨by simp [List.length_take]; omega, ?_⟩
      intro b hb
      obtain ⟨_, _, rfl⟩ := List.mem_map.mp hb
      rfl
    have hb : (List.map ((fun inv : Invocation Ctx RE IE E => inv.err) ∘
        fun e => (⟨ctx, .room e, true, some err⟩ : Invocation Ctx RE IE E))
        ((request.InputRoomEvents.drop k).take 1)) = [some err] := by
      have : [some err] = List.replicate 1 (some err) := rfl
      rw [this, List.eq_replicate_iff]
      refine ⟨by rw [List.length_map, hd], ?_⟩
      intro b hb
      obtain ⟨_, _, rfl⟩ := List.mem_map.mp hb
      rfl
    rw [ha, hb]
  · exact h3

/-- C2: for every batch in which some room event fails (the processor first
fails at index `k`), a call of `InputRoomEvents` that gets the lock makes no
invocation of the invite-event processor, whatever the invite events of the
batch are: the call does exactly what it does on the same batch without its
invite events. -/
theorem InputRoomEvents_invites_gated {Resp : Type} (deps : Deps Ctx D P B RE IE OE E)
    (ctx : Ctx) (request : InputRoomEventsRequest RE IE) (response : Resp)
    (r : RoomserverInputAPI D P B) (k : Nat) (err : E)
    (hfree : r.mutex = false)
    (hok : ∀ i, i < k → roomErrAt deps ctx r.OutputRoomEventTopic (r.DB, r.Producer)
      request.InputRoomEvents i = none)
    (hfail : roomErrAt deps ctx r.OutputRoomEventTopic (r.DB, r.Producer)
      request.InputRoomEvents k = some err) :
    ∃ out, InputRoomEvents deps ctx request response r = some out ∧
      (∀ inv ∈ out.calls, ∀ e : IE, inv.call ≠ Call.invite e) ∧
      InputRoomEvents deps ctx { request with InputInviteEvents := [] } response r
        = some out := by
  obtain ⟨h1, -, -⟩ := roomEventsLoop_fail deps ctx request.InputRoomEvents
    { r with mutex := true } k err hok hfail
  refine ⟨_, InputRoomEvents_of_room_err deps ctx request response r hfree err h1, ?_,
    InputRoomEvents_of_room_err deps ctx { request with InputInviteEvents := [] } response r
      hfree err h1⟩
  intro inv hinv e he
  obtain ⟨-, -, x, -, hx⟩ :=
    (roomEventsLoop_frame deps ctx request.InputRoomEvents { r with mutex := true }).2.2 inv hinv
  rw [hx] at he
  cases he

/-- Witness for C1 on the concrete instance: room events `[1, 0, 2]`, where the
processor accepts `1` and rejects `0` with error `7`. -/
theorem InputRoomEvents_fail_fast_witness :
    demoAPI.mutex = false ∧
    roomErrAt (demoDeps Unit) () demoAPI.OutputRoomEventTopic (demoAPI.DB, demoAPI.Producer)
      demoRequest.InputRoomEvents 1 = some 7 ∧
    ∃ out, InputRoomEvents (demoDeps Unit) () demoRequest () demoAPI = some out ∧
      out.calls.map (fun inv => inv.call) = [Call.room 1, Call.room 0] ∧
      out.err = some 7 := by
  refine ⟨rfl, rfl, ?_⟩
  obtain ⟨out, h, hc, -, -, -, he⟩ :=
    InputRoomEvents_fail_fast (demoDeps Unit) () demoRequest () demoAPI 1 7 rfl
      (by intro i hi; interval_cases i; rfl) rfl
  exact ⟨out, h, hc, he⟩

/-- Witness for C2 on the concrete instance: room events `[1, 0, 2]` and the
invite event `3`, which the invite processor would accept. -/
theorem InputRoomEvents_invites_gated_witness :
    inviteErrAt (demoDeps Unit) () demoAPI.OutputRoomEventTopic (demoAPI.DB, demoAPI.Producer)
      demoRequest.InputInviteEvents 0 = none ∧
    ∃ out, InputRoomEvents (demoDeps Unit) () demoRequest () demoAPI = some out ∧
      ∀ inv ∈ out.calls, ∀ e : Nat, inv.call ≠ Call.invite e := by
  refine ⟨rfl, ?_⟩
  obtain ⟨out, h, hc, -⟩ :=
    InputRoomEvents_invites_gated (demoDeps Unit) () demoRequest () demoAPI 1 7 rfl
      (by intro i hi; interval_cases i; rfl) rfl
  exact ⟨out, h, hc⟩

/-- C3: for every batch in which every room event succeeds, a call of
`InputRoomEvents` that gets the lock returns, and its processor invocations
are one room-event invocation for each room event, in submission order,
followed by invite-event invocations in submission order: on each of
`v0..vj` when the invite processor first fails at index `j`, the call then
returning that error; on every invite event when none fails, the call then
returning nil. On the empty batch it makes no invocation and returns nil. -/
theorem InputRoomEvents_all_rooms_ok {Resp : Type} (deps : Deps Ctx D P B RE IE OE E)
    (ctx : Ctx) (request : InputRoomEventsRequest RE IE) (response : Resp)
    (r : RoomserverInputAPI D P B)
    (hfree : r.mutex = false)
    (hrooms : ∀ i, roomErrAt deps ctx r.OutputRoomEventTopic (r.DB, r.Producer)
      request.InputRoomEvents i = none) :
    ∃ out, InputRoomEvents deps ctx request response r = some out ∧
      (∀ (j : Nat) (err : E),
        (∀ i, i < j → inviteErrAt deps ctx r.OutputRoomEventTopic
          (storeAfterRoomEvents deps ctx r.OutputRoomEventTopic (r.DB, r.Producer)
            request.InputRoomEvents) request.InputInviteEvents i = none) →
        inviteErrAt deps ctx r.OutputRoomEventTopic
          (storeAfterRoomEvents deps ctx r.OutputRoomEventTopic (r.DB, r.Producer)
            request.InputRoomEvents) request.InputInviteEvents j = some err →
        out.calls.map (fun inv => inv.call)
          = request.InputRoomEvents.map Call.room
            ++ (request.InputInviteEvents.take (j + 1)).map Call.invite ∧
        out.err = some err) ∧
      ((∀ i, inviteErrAt deps ctx r.OutputRoomEventTopic
          (storeAfterRoomEvents deps ctx r.OutputRoomEventTopic (r.DB, r.Producer)
            request.InputRoomEvents) request.InputInviteEvents i = none) →
        out.calls.map (fun inv => inv.call)
          = request.InputRoomEvents.map Call.room
            ++ request.InputInviteEvents.map Call.invite ∧
        out.err = none) ∧
      (request.InputRoomEvents = [] → request.InputInviteEvents = [] →
        out.calls = [] ∧ out.err = none) := by
  obtain ⟨h1, h2, h3⟩ := roomEventsLoop_ok deps ctx request.InputRoomEvents
    { r with mutex := true } hrooms
  obtain ⟨-, htopic, -⟩ := roomEventsLoop_frame deps ctx request.InputRoomEvents
    { r with mutex := true }
  refine ⟨_, InputRoomEvents_of_room_ok deps ctx request response r hfree h1, ?_, ?_, ?_⟩
  · intro j err hok hfail
    obtain ⟨g1, g2, -⟩ := inviteEventsLoop_fail deps ctx request.InputInviteEvents
      (roomEventsLoop deps ctx request.InputRoomEvents { r with mutex := true }).api j err
      (by intro i hi; rw [htopic, h3]; exact hok i hi) (by rw [htopic, h3]; exact hfail)
    refine ⟨?_, g1⟩
    rw [take_succ_split request.InputInviteEvents j, List.map_append, h2, g2]
    simp only [List.map_append, List.map_map]
    rfl
  · intro hok
    obtain ⟨g1, g2, -⟩ := inviteEventsLoop_ok deps ctx request.InputInviteEvents
      (roomEventsLoop deps ctx request.InputRoomEvents { r with mutex := true }).api
      (by intro i; rw [htopic, h3]; exact hok i)
    refine ⟨?_, g1⟩
    rw [List.map_append, h2, g2]
    simp only [List.map_map]
    rfl
  · intro hr hi
    simp [hr, hi, roomEventsLoop, inviteEventsLoop]

/-- Witness for C3 on the concrete instance: room events `[1, 2]` are accepted,
and of the invite events `[3, 0, 4]` the second is rejected with error `9`. -/
theorem InputRoomEvents_all_rooms_ok_witness :
    ∃ out, InputRoomEvents (demoDeps Unit) () demoRequestInvites () demoAPI = some out ∧
      out.calls.map (fun inv => inv.call)
        = [Call.room 1, Call.room 2, Call.invite 3, Call.invite 0] ∧
      out.err = some 9 := by
  obtain ⟨out, h, hfail, -, -⟩ :=
    InputRoomEvents_all_rooms_ok (demoDeps Unit) () demoRequestInvites () demoAPI rfl
      (by
        intro i
        rcases Nat.lt_or_ge i 2 with hi | hi
        · interval_cases i <;> rfl
        · have : demoRequestInvites.InputRoomEvents[i]? = none :=
            List.getElem?_eq_none (by simpa [demoRequestInvites] using hi)
          simp [roomErrAt, this])
  obtain ⟨hc, he⟩ := hfail 1 9 (by intro i hi; interval_cases i; rfl) rfl
  exact ⟨out, h, hc, he⟩

/-- C9: with the mutex as a held/free flag, for every batch and whatever the
processors return, a call of `InputRoomEvents` made while the mutex is free
returns, every processor invocation of the call is made with the mutex held,
and the mutex is free when the call has returned. -/
theorem InputRoomEvents_lock_discipline {Resp : Type} (deps : Deps Ctx D P B RE IE OE E)
    (ctx : Ctx) (request : InputRoomEventsRequest RE IE) (response : Resp)
    (r : RoomserverInputAPI D P B) (hfree : r.mutex = false) :
    ∃ out, InputRoomEvents deps ctx request response r = some out ∧
      (∀ inv ∈ out.calls, inv.mutexHeld = true) ∧
      out.api.mutex = false := by
  obtain ⟨hm, -, hc⟩ := roomEventsLoop_frame deps ctx request.InputRoomEvents
    { r with mutex := true }
  cases herr : (roomEventsLoop deps ctx request.InputRoomEvents { r with mutex := true }).err with
  | some err =>
    refine ⟨_, InputRoomEvents_of_room_err deps ctx request response r hfree err herr, ?_, rfl⟩
    intro inv hinv
    exact (hc inv hinv).1
  | none =>
    refine ⟨_, InputRoomEvents_of_room_ok deps ctx request response r hfree herr, ?_, rfl⟩
    obtain ⟨-, -, hc2⟩ := inviteEventsLoop_frame deps ctx request.InputInviteEvents
      (roomEventsLoop deps ctx request.InputRoomEvents { r with mutex := true }).api
    intro inv hinv
    rcases List.mem_append.mp hinv with hinv | hinv
    · exact (hc inv hinv).1
    · rw [(hc2 inv hinv).1, hm]

/-- Witness for C9 on the concrete instance, on a batch with a failing room
event. -/
theorem InputRoomEvents_lock_discipline_witness :
    demoAPI.mutex = false ∧
    ∃ out, InputRoomEvents (demoDeps Unit) () demoRequest () demoAPI = some out ∧
      (∀ inv ∈ out.calls, inv.mutexHeld = true) ∧ out.api.mutex = false :=
  ⟨rfl, InputRoomEvents_lock_discipline (demoDeps Unit) () demoRequest () demoAPI rfl⟩

/-- C8, as stated, fails on the scenario of the spec: room events `[1, 0, 2]`
(the first is accepted, the second is the first to fail) and one invite, with
the zero-valued response the HTTP handler passes. The call returns error `7`,
and the response is still the zero value: it reports neither one committed
room event nor the failing index `1`. -/
theorem InputRoomEvents_response_counterexample :
    roomErrAt (demoDeps Unit) () demoAPI.OutputRoomEventTopic (demoAPI.DB, demoAPI.Producer)
      demoRequest.InputRoomEvents 0 = none ∧
    roomErrAt (demoDeps Unit) () demoAPI.OutputRoomEventTopic (demoAPI.DB, demoAPI.Producer)
      demoRequest.InputRoomEvents 1 = some 7 ∧
    (InputRoomEvents (demoDeps Unit) () demoRequest
        ({ roomEventsCommitted := 0, inviteEventsCommitted := 0, failure := none } :
          BatchOutcome Nat) demoAPI).map (fun out => (out.err, out.response))
      = some (some 7, { roomEventsCommitted := 0, inviteEventsCommitted := 0,
                        failure := none }) ∧
    (InputRoomEvents (demoDeps Unit) () demoRequest
        ({ roomEventsCommitted := 0, inviteEventsCommitted := 0, failure := none } :
          BatchOutcome Nat) demoAPI).map (fun out => out.response.roomEventsCommitted)
      ≠ some 1 ∧
    (InputRoomEvents (demoDeps Unit) () demoRequest
        ({ roomEventsCommitted := 0, inviteEventsCommitted := 0, failure := none } :
          BatchOutcome Nat) demoAPI).map (fun out => out.response.failure.map Prod.fst)
      ≠ some (some 1) := by
  refine ⟨rfl, rfl, rfl, ?_, ?_⟩ <;> decide

/-- C8, amended: `InputRoomEvents` never writes to the response, and reports a
failure only through the returned error. For every batch, every response
object and whatever the processors return, a call that gets the lock returns
with the response exactly as it was passed in; and the error it returns is
the error of the first failing event: that of the room event at index `k` when
the room-event processor first fails there; else that of the invite event at
index `j` when every room event succeeds and the invite-event processor first
fails there; and nil when no event fails. -/
theorem InputRoomEvents_response_untouched {Resp : Type} (deps : Deps Ctx D P B RE IE OE E)
    (ctx : Ctx) (request : InputRoomEventsRequest RE IE) (response : Resp)
    (r : RoomserverInputAPI D P B) (hfree : r.mutex = false) :
    ∃ out, InputRoomEvents deps ctx request response r = some out ∧
      out.response = response ∧
      (∀ (k : Nat) (err : E),
        (∀ i, i < k → roomErrAt deps ctx r.OutputRoomEventTopic (r.DB, r.Producer)
          request.InputRoomEvents i = none) →
        roomErrAt deps ctx r.OutputRoomEventTopic (r.DB, r.Producer)
          request.InputRoomEvents k = some err →
        out.err = some err) ∧
      ((∀ i, roomErrAt deps ctx r.OutputRoomEventTopic (r.DB, r.Producer)
          request.InputRoomEvents i = none) →
        ∀ (j : Nat) (err : E),
          (∀ i, i < j → inviteErrAt deps ctx r.OutputRoomEventTopic
            (storeAfterRoomEvents deps ctx r.OutputRoomEventTopic (r.DB, r.Producer)
              request.InputRoomEvents) request.InputInviteEvents i = none) →
          inviteErrAt deps ctx r.OutputRoomEventTopic
            (storeAfterRoomEvents deps ctx r.OutputRoomEventTopic (r.DB, r.Producer)
              request.InputRoomEvents) request.InputInviteEvents j = some err →
          out.err = some err) ∧
      ((∀ i, roomErrAt deps ctx r.OutputRoomEventTopic (r.DB, r.Producer)
          request.InputRoomEvents i = none) →
        (∀ i, inviteErrAt deps ctx r.OutputRoomEventTopic
          (storeAfterRoomEvents deps ctx r.OutputRoomEventTopic (r.DB, r.Producer)
            request.InputRoomEvents) request.InputInviteEvents i = none) →
        out.err = none) := by
  obtain ⟨-, htopic, -⟩ := roomEventsLoop_frame deps ctx request.InputRoomEvents
    { r with mutex := true }
  cases herr : (roomEventsLoop deps ctx request.InputRoomEvents { r with mutex := true }).err with
  | some e0 =>
    refine ⟨_, InputRoomEvents_of_room_err deps ctx request response r hfree e0 herr, rfl,
      ?_, ?_, ?_⟩
    · intro k err hok hfail
      obtain ⟨h1, -, -⟩ := roomEventsLoop_fail deps ctx request.InputRoomEvents
        { r with mutex := true } k err hok hfail
      show some e0 = some err
      rw [← herr, h1]
    · intro hrooms
      obtain ⟨h1, -, -⟩ := roomEventsLoop_ok deps ctx request.InputRoomEvents
        { r with mutex := true } hrooms
      rw [herr] at h1
      cases h1
    · intro hrooms
      obtain ⟨h1, -, -⟩ := roomEventsLoop_ok deps ctx request.InputRoomEvents
        { r with mutex := true } hrooms
      rw [herr] at h1
      cases h1
  | none =>
    refine ⟨_, InputRoomEvents_of_room_ok deps ctx request response r hfree herr, rfl,
      ?_, ?_, ?_⟩
    · intro k err hok hfail
      obtain ⟨h1, -, -⟩ := roomEventsLoop_fail deps ctx request.InputRoomEvents
        { r with mutex := true } k err hok hfail
      rw [herr] at h1
      cases h1
    · intro hrooms j err hok hfail
      obtain ⟨-, -, h3⟩ := roomEventsLoop_ok deps ctx request.InputRoomEvents
        { r with mutex := true } hrooms
      obtain ⟨g1, -, -⟩ := inviteEventsLoop_fail deps ctx request.InputInviteEvents
        (roomEventsLoop deps ctx request.InputRoomEvents { r with mutex := true }).api j err
        (by intro i hi; rw [htopic, h3]; exact hok i hi) (by rw [htopic, h3]; exact hfail)
      exact g1
    · intro hrooms hok
      obtain ⟨-, -, h3⟩ := roomEventsLoop_ok deps ctx request.InputRoomEvents
        { r with mutex := true } hrooms
      obtain ⟨g1, -, -⟩ := inviteEventsLoop_ok deps ctx request.InputInviteEvents
        (roomEventsLoop deps ctx request.InputRoomEvents { r with mutex := true }).api
        (by intro i; rw [htopic, h3]; exact hok i)
      exact g1

/-- Witness for the amended C8 on the concrete instance: room events
`[1, 0, 2]`, the second being the first to fail, with error `7`. -/
theorem InputRoomEvents_response_untouched_witness :
    demoAPI.mutex = false ∧
    ∃ out, InputRoomEvents (demoDeps Unit) () demoRequest (5 : Nat) demoAPI = some out ∧
      out.response = 5 ∧ out.err = some 7 := by
  obtain ⟨out, h, hresp, hroom, -, -⟩ :=
    InputRoomEvents_response_untouched (demoDeps Unit) () demoRequest (5 : Nat) demoAPI rfl
  exact ⟨rfl, out, h, hresp, hroom 1 7 (by intro i hi; interval_cases i; rfl) rfl⟩

/-- C10, as stated, fails: with a context that is cancelled before the call,
and processors that do not fail, the call on room events `[1, 2]` and invite
events `[3, 0, 4]` still invokes the processors on four events, one after the
other, each with the cancelled context. -/
theorem InputRoomEvents_context_counterexample :
    (InputRoomEvents (demoDeps Context) { cancelled := true } demoRequestInvites ()
        demoAPI).map (fun out => out.calls.map (fun inv => (inv.ctx.cancelled, inv.call)))
      = some [(true, Call.room 1), (true, Call.room 2), (true, Call.invite 3),
              (true, Call.invite 0)] := by
  rfl

/-- The shape of a call that gets the lock, whatever the processors do: every
invocation carries `ctx`; the first room event, if any, is invoked; the
invocations are a prefix of the room events followed by the invite events;
every invocation but the last returned nil; a call returning nil invoked
every event, each returning nil; a call returning an error returns the one
its last invocation returned. -/
theorem InputRoomEvents_shape {Resp : Type}
    (deps : Deps Ctx D P B RE IE OE E)
    (ctx : Ctx) (request : InputRoomEventsRequest RE IE) (response : Resp)
    (r : RoomserverInputAPI D P B) (hfree : r.mutex = false) :
    ∃ out, InputRoomEvents deps ctx request response r = some out ∧
      (∀ inv ∈ out.calls, inv.ctx = ctx) ∧
      (∀ e rest, request.InputRoomEvents = e :: rest →
        out.calls.head?.map (fun inv => inv.call) = some (Call.room e)) ∧
      out.calls.map (fun inv => inv.call)
        = ((request.InputRoomEvents.map Call.room
            ++ request.InputInviteEvents.map Call.invite).take out.calls.length) ∧
      (∀ inv ∈ out.calls.dropLast, inv.err = none) ∧
      (out.err = none →
        out.calls.map (fun inv => inv.call)
          = request.InputRoomEvents.map Call.room
            ++ request.InputInviteEvents.map Call.invite) ∧
      (∀ err, out.err = some err →
        ∃ inv, out.calls.getLast? = some inv ∧ inv.err = some err) ∧
      (out.err = none → ∀ inv ∈ out.calls, inv.err = none) := by
  obtain ⟨-, -, hc⟩ := roomEventsLoop_frame deps ctx request.InputRoomEvents
    { r with mutex := true }
  obtain ⟨s1, s2, s3, s4⟩ := roomEventsLoop_shape deps ctx request.InputRoomEvents
    { r with mutex := true }
  have hhead : ∀ e rest, request.InputRoomEvents = e :: rest →
      ((roomEventsLoop deps ctx request.InputRoomEvents
        { r with mutex := true }).calls.head?).map (fun inv => inv.call)
        = some (Call.room e) := by
    intro e rest he
    rw [he]
    cases hres : (runRoomEvent deps ctx r.OutputRoomEventTopic (r.DB, r.Producer) e).2 with
    | some err => simp [roomEventsLoop, hres]
    | none => simp [roomEventsLoop, hres]
  cases herr : (roomEventsLoop deps ctx request.InputRoomEvents { r with mutex := true }).err with
  | some err =>
    refine ⟨_, InputRoomEvents_of_room_err deps ctx request response r hfree err herr,
      ?_, hhead, ?_, s2, ?_, ?_, ?_⟩
    · intro inv hinv; exact (hc inv hinv).2.1
    · show List.map _ (roomEventsLoop deps ctx request.InputRoomEvents _).calls = _
      rw [s1, List.take_append_eq_append_take, ← List.map_take, ← List.map_take]
      have hle : (roomEventsLoop deps ctx request.InputRoomEvents
          { r with mutex := true }).calls.length ≤ request.InputRoomEvents.length := by
        have := congrArg List.length s1
        simp only [List.length_map, List.length_take] at this
        omega
      simp [Nat.sub_eq_zero_of_le hle]
    · intro h; cases h
    · intro e he
      exact s4 e (by rw [herr]; exact he)
    · intro h; cases h
  | none =>
    obtain ⟨-, -, hc2⟩ := inviteEventsLoop_frame deps ctx request.InputInviteEvents
      (roomEventsLoop deps ctx request.InputRoomEvents { r with mutex := true }).api
    obtain ⟨t1, t2, t3, t4⟩ := inviteEventsLoop_shape deps ctx request.InputInviteEvents
      (roomEventsLoop deps ctx request.InputRoomEvents { r with mutex := true }).api
    obtain ⟨hlen, hnone⟩ := s3 herr
    have hrooms : List.map (fun inv => inv.call) (roomEventsLoop deps ctx
        request.InputRoomEvents { r with mutex := true }).calls
        = request.InputRoomEvents.map Call.room := by
      rw [s1, hlen, List.take_length]
    refine ⟨_, InputRoomEvents_of_room_ok deps ctx request response r hfree herr,
      ?_, ?_, ?_, ?_, ?_, ?_, ?_⟩
    · intro inv hinv
      rcases List.mem_append.mp hinv with hinv | hinv
      · exact (hc inv hinv).2.1
      · exact (hc2 inv hinv).2.1
    · intro e rest he
      have h := hhead e rest he
      show Option.map _ (List.head? (_ ++ _)) = _
      rw [List.head?_append]
      cases hh : (roomEventsLoop deps ctx request.InputRoomEvents
          { r with mutex := true }).calls.head? with
      | none => rw [hh] at h; simp at h
      | some inv => rw [hh] at h; simpa using h
    · show List.map _ (_ ++ _) = List.take (List.length (_ ++ _)) _
      rw [List.map_append, hrooms, t1, List.length_append, hlen,
        List.take_append_eq_append_take, ← List.map_take]
      simp
    · show ∀ inv ∈ List.dropLast (_ ++ _), _
      intro inv hinv
      cases hb : (inviteEventsLoop deps ctx request.InputInviteEvents
          (roomEventsLoop deps ctx request.InputRoomEvents { r with mutex := true }).api).calls with
      | nil =>
        rw [hb, List.append_nil] at hinv
        exact s2 inv hinv
      | cons c cs =>
        rw [hb, List.dropLast_append_of_ne_nil _ (by simp)] at hinv
        rcases List.mem_append.mp hinv with hinv | hinv
        · exact hnone inv hinv
        · exact t2 inv (by rw [hb]; exact hinv)
    · intro he
      obtain ⟨hlen2, -⟩ := t3 he
      show List.map _ (_ ++ _) = _
      rw [List.map_append, hrooms, t1, hlen2, List.take_length]
    · intro e he
      obtain ⟨inv, hlast, hinv⟩ := t4 e he
      refine ⟨inv, ?_, hinv⟩
      show List.getLast? (_ ++ _) = _
      rw [List.getLast?_append, hlast]
      rfl
    · intro he inv hinv
      rcases List.mem_append.mp hinv with hinv | hinv
      · exact hnone inv hinv
      · exact (t3 he).2 inv hinv

/-- C10, amended: `InputRoomEvents` does not look at the context; it hands it
unchanged to every processor invocation. For every context (cancelled or not)
and every batch, a call that gets the lock: passes `ctx` in every invocation;
invokes the room-event processor on the first room event if there is one;
makes its invocations on a prefix of the room events followed by the invite
events, every invocation but the last having returned nil; processes every
event of the batch when it returns nil; stops early only on a processor
error; and returns exactly what its last invocation returned (nil when it
made none). -/
theorem InputRoomEvents_context_passed_through {Resp : Type}
    (deps : Deps Ctx D P B RE IE OE E)
    (ctx : Ctx) (request : InputRoomEventsRequest RE IE) (response : Resp)
    (r : RoomserverInputAPI D P B) (hfree : r.mutex = false) :
    ∃ out, InputRoomEvents deps ctx request response r = some out ∧
      (∀ inv ∈ out.calls, inv.ctx = ctx) ∧
      (∀ e rest, request.InputRoomEvents = e :: rest →
        out.calls.head?.map (fun inv => inv.call) = some (Call.room e)) ∧
      out.calls.map (fun inv => inv.call)
        = ((request.InputRoomEvents.map Call.room
            ++ request.InputInviteEvents.map Call.invite).take out.calls.length) ∧
      (∀ inv ∈ out.calls.dropLast, inv.err = none) ∧
      (out.err = none →
        out.calls.map (fun inv => inv.call)
          = request.InputRoomEvents.map Call.room
            ++ request.InputInviteEvents.map Call.invite) ∧
      (∀ err, out.err = some err →
        ∃ inv, out.calls.getLast? = some inv ∧ inv.err = some err) ∧
      out.err = out.calls.getLast?.bind (fun inv => inv.err) := by
  obtain ⟨out, h, c1, c2, c3, c4, c5, c6, c7⟩ :=
    InputRoomEvents_shape deps ctx request response r hfree
  refine ⟨out, h, c1, c2, c3, c4, c5, c6, ?_⟩
  cases he : out.err with
  | some err =>
    obtain ⟨inv, hl, hi⟩ := c6 err he
    rw [hl, Option.some_bind, hi]
  | none =>
    cases hl : out.calls.getLast? with
    | none => rfl
    | some inv =>
      rw [Option.some_bind, c7 he inv (List.mem_of_getLast?_eq_some hl)]

/-- Witness for the amended C10 on the concrete instance, with a context that
is already cancelled. -/
theorem InputRoomEvents_context_passed_through_witness :
    demoAPI.mutex = false ∧
    ∃ out, InputRoomEvents (demoDeps Context) { cancelled := true } demoRequestInvites ()
        demoAPI = some out ∧
      (∀ inv ∈ out.calls, inv.ctx = { cancelled := true }) ∧
      out.calls.head?.map (fun inv => inv.call) = some (Call.room 1) ∧
      out.err = out.calls.getLast?.bind (fun inv => inv.err) := by
  obtain ⟨out, h, hctx, hhead, -, -, -, -, herr⟩ :=
    InputRoomEvents_context_passed_through (demoDeps Context) { cancelled := true }
      demoRequestInvites () demoAPI rfl
  exact ⟨rfl, out, h, hctx, hhead 1 [2] rfl, herr⟩

end InputClaims

/-! ## Concurrent callers: mutual exclusion -/

section Concurrency

variable {Ctx D P B RE IE OE E : Type}

theorem setPc_same (sys : System Ctx D P B RE IE E) (t : Nat) (pc : Pc RE IE E) :
    (sys.setPc t pc t).pc = pc := by
  simp [System.setPc]

theorem setPc_other (sys : System Ctx D P B RE IE E) (t u : Nat) (pc : Pc RE IE E)
    (h : u ≠ t) : sys.setPc t pc u = sys.callers u := by
  simp [System.setPc, Function.update_noteq h]

/-- The forms a move of caller `t` can take: nothing changes; or `t` gets the
lock; or `t`, holding the lock, moves on, with at most one invocation of its
own appended to the trace. -/
theorem step_cases (deps : Deps Ctx D P B RE IE OE E) (t : Nat)
    (sys : System Ctx D P B RE IE E) :
    System.step deps t sys = sys ∨
    ∃ pc, (System.step deps t sys).callers = sys.setPc t pc ∧
      (((sys.callers t).pc = .waiting ∧ sys.api.mutex = false ∧ pc.active = true ∧
          (System.step deps t sys).api.mutex = true ∧
          (System.step deps t sys).trace = sys.trace) ∨
       ((sys.callers t).pc.active = true ∧ pc ≠ .waiting ∧
          (pc.active = true → (System.step deps t sys).api.mutex = sys.api.mutex) ∧
          (callerIds (System.step deps t sys).trace = callerIds sys.trace ∨
           callerIds (System.step deps t sys).trace = callerIds sys.trace ++ [t]))) := by
  cases hpc : (sys.callers t).pc with
  | waiting =>
    cases hm : sys.api.mutex with
    | true => left; simp [System.step, hpc, Lock, hm]
    | false =>
      right
      refine ⟨.rooms (sys.callers t).request.InputRoomEvents, ?_, Or.inl ?_⟩
      · simp [System.step, hpc, Lock, hm]
      · simp [System.step, hpc, Lock, hm, Pc.active]
  | rooms rest =>
    right
    cases rest with
    | nil =>
      refine ⟨.invites (sys.callers t).request.InputInviteEvents, ?_, Or.inr ?_⟩
      · simp [System.step, hpc]
      · simp [System.step, hpc, Pc.active]
    | cons e rest =>
      cases hres : (runRoomEvent deps (sys.callers t).ctx sys.api.OutputRoomEventTopic
          (sys.api.DB, sys.api.Producer) e).2 with
      | some err =>
        refine ⟨.returned (some err), ?_, Or.inr ?_⟩
        · simp [System.step, hpc, hres]
        · simp [System.step, hpc, hres, Pc.active, callerIds]
      | none =>
        refine ⟨.rooms rest, ?_, Or.inr ?_⟩
        · simp [System.step, hpc, hres]
        · simp [System.step, hpc, hres, Pc.active, callerIds]
  | invites rest =>
    right
    cases rest with
    | nil =>
      refine ⟨.returned none, ?_, Or.inr ?_⟩
      · simp [System.step, hpc]
      · simp [System.step, hpc, Pc.active]
    | cons e rest =>
      cases hres : (runInviteEvent deps (sys.callers t).ctx sys.api.OutputRoomEventTopic
          (sys.api.DB, sys.api.Producer) e).2 with
      | some err =>
        refine ⟨.returned (some err), ?_, Or.inr ?_⟩
        · simp [System.step, hpc, hres]
        · simp [System.step, hpc, hres, Pc.active, callerIds]
      | none =>
        refine ⟨.invites rest, ?_, Or.inr ?_⟩
        · simp [System.step, hpc, hres]
        · simp [System.step, hpc, hres, Pc.active, callerIds]
  | returned err => left; simp [System.step, hpc]

theorem allBefore_of_not_mem (a b : Nat) (ids : List Nat) (h : b ∉ ids) :
    AllBefore a b ids := by
  apply List.pairwise_of_forall_mem_list
  intro x hx y _ hxy
  exact h (hxy.1 ▸ hx)

theorem allBefore_snoc (a b t : Nat) (ids : List Nat) (h : AllBefore a b ids) (hta : t ≠ a) :
    AllBefore a b (ids ++ [t]) := by
  unfold AllBefore at h ⊢
  rw [List.pairwise_append]
  refine ⟨h, List.pairwise_singleton _ _, ?_⟩
  intro x _ y hy hxy
  rw [List.mem_singleton] at hy
  exact hta (hy ▸ hxy.2)

theorem inv_init (r : RoomserverInputAPI D P B)
    (batches : Nat → Ctx × InputRoomEventsRequest RE IE) :
    Inv (System.init r batches : System Ctx D P B RE IE E) where
  waiting_fresh := by intro t _; simp [System.init, callerIds]
  active_locked := by intro t h; simp [System.init, Pc.active] at h
  active_unique := by intro t u h; simp [System.init, Pc.active] at h
  active_last := by intro t h; simp [System.init, Pc.active] at h
  separated := by
    intro a b _
    left
    simp [System.init, callerIds, AllBefore]

theorem inv_step (deps : Deps Ctx D P B RE IE OE E) (t : Nat)
    (sys : System Ctx D P B RE IE E) (h : Inv sys) : Inv (System.step deps t sys) := by
  rcases step_cases deps t sys with hs | ⟨pc, hcallers, hcase⟩
  · rw [hs]; exact h
  · have hpc_t : ((System.step deps t sys).callers t).pc = pc := by
      rw [hcallers]; exact setPc_same sys t pc
    have hpc_u : ∀ u, u ≠ t → (System.step deps t sys).callers u = sys.callers u := by
      intro u hu; rw [hcallers]; exact setPc_other sys t u pc hu
    rcases hcase with ⟨hwait, hfree, hact, hmutex, htrace⟩ | ⟨hact, hnw, hmutex, htrace⟩
    · -- caller t gets the lock
      have hnone : ∀ u, (sys.callers u).pc.active = true → False := by
        intro u hu
        have := h.active_locked u hu
        rw [hfree] at this
        cases this
      have honly : ∀ u, ((System.step deps t sys).callers u).pc.active = true → u = t := by
        intro u hu
        by_contra hne
        rw [hpc_u u hne] at hu
        exact hnone u hu
      refine ⟨?_, ?_, ?_, ?_, ?_⟩
      · intro u hu
        rw [htrace]
        by_cases hut : u = t
        · subst hut; exact h.waiting_fresh u hwait
        · rw [hpc_u u hut] at hu; exact h.waiting_fresh u hu
      · intro _ _; exact hmutex
      · intro u v hu hv; rw [honly u hu, honly v hv]
      · intro u hu b _
        rw [htrace, honly u hu]
        exact allBefore_of_not_mem b t _ (h.waiting_fresh t hwait)
      · intro a b hab; rw [htrace]; exact h.separated a b hab
    · -- caller t holds the lock and moves on
      have honly_old : ∀ u, (sys.callers u).pc.active = true → u = t :=
        fun u hu => h.active_unique u t hu hact
      have honly : ∀ u, ((System.step deps t sys).callers u).pc.active = true → u = t := by
        intro u hu
        by_contra hne
        rw [hpc_u u hne] at hu
        exact hne (honly_old u hu)
      have hlast : ∀ b, b ≠ t →
          AllBefore b t (callerIds (System.step deps t sys).trace) := by
        intro b hb
        rcases htrace with htr | htr
        · rw [htr]; exact h.active_last t hact b hb
        · rw [htr]; exact allBefore_snoc b t t _ (h.active_last t hact b hb) (Ne.symm hb)
      refine ⟨?_, ?_, ?_, ?_, ?_⟩
      · intro u hu
        have hut : u ≠ t := by
          intro hut; subst hut; rw [hpc_t] at hu; exact hnw hu
        rw [hpc_u u hut] at hu
        have := h.waiting_fresh u hu
        rcases htrace with htr | htr
        · rw [htr]; exact this
        · rw [htr, List.mem_append, List.mem_singleton]
          rintro (hm | hm)
          · exact this hm
          · exact hut hm
      · intro u hu
        have hut := honly u hu
        subst hut
        rw [hpc_t] at hu
        rw [hmutex hu]
        exact h.active_locked u hact
      · intro u v hu hv; rw [honly u hu, honly v hv]
      · intro u hu b hb
        have hut := honly u hu
        subst hut
        exact hlast b hb
      · intro a b hab
        by_cases hat : a = t
        · subst hat; right; exact hlast b (Ne.symm hab)
        · by_cases hbt : b = t
          · subst hbt; left; exact hlast a hat
          · rcases htrace with htr | htr
            · rw [htr]; exact h.separated a b hab
            · rw [htr]
              rcases h.separated a b hab with hsep | hsep
              · left; exact allBefore_snoc a b t _ hsep (Ne.symm hat)
              · right; exact allBefore_snoc b a t _ hsep (Ne.symm hbt)

theorem inv_run (deps : Deps Ctx D P B RE IE OE E) (schedule : List Nat) :
    ∀ (sys : System Ctx D P B RE IE E), Inv sys → Inv (System.run deps schedule sys) := by
  induction schedule with
  | nil => intro sys h; exact h
  | cons t rest ih =>
    intro sys h
    exact ih _ (inv_step deps t sys h)

theorem allBefore_index (a b : Nat) (hab : a ≠ b) (ids : List Nat) (h : AllBefore a b ids)
    (i j : Nat) (hi : i < ids.length) (hj : j < ids.length)
    (hia : ids[i] = a) (hjb : ids[j] = b) : i < j := by
  rcases Nat.lt_trichotomy i j with hlt | heq | hgt
  · exact hlt
  · subst heq; exact absurd (hia.symm.trans hjb) hab
  · exact absurd ⟨hjb, hia⟩ ((List.pairwise_iff_getElem.mp h) j i hj hi hgt)

/-! ### A caller running alone does what `InputRoomEvents` does -/

theorem run_returned (deps : Deps Ctx D P B RE IE OE E) (t : Nat) (n : Nat)
    (sys : System Ctx D P B RE IE E) (err : Option E)
    (h : (sys.callers t).pc = .returned err) :
    System.run deps (List.replicate n t) sys = sys := by
  induction n with
  | zero => rfl
  | succ n ih =>
    have hs : System.step deps t sys = sys := by simp [System.step, h]
    simp only [System.run, List.replicate_succ, List.foldl_cons, hs]
    exact ih

theorem run_cons (deps : Deps Ctx D P B RE IE OE E) (t : Nat) (rest : List Nat)
    (sys : System Ctx D P B RE IE E) :
    System.run deps (t :: rest) sys = System.run deps rest (System.step deps t sys) := rfl

theorem setPc_setPc (sys : System Ctx D P B RE IE E) (t : Nat) (pc1 pc2 : Pc RE IE E)
    (api : RoomserverInputAPI D P B) (trace : List (Nat × Invocation Ctx RE IE E)) :
    System.setPc { api := api, callers := sys.setPc t pc1, trace := trace } t pc2
      = sys.setPc t pc2 := by
  funext u
  by_cases hu : u = t
  · subst hu; simp [System.setPc]
  · simp [System.setPc, Function.update_noteq hu]

theorem run_invites (deps : Deps Ctx D P B RE IE OE E) (t : Nat) :
    ∀ (es : List IE) (sys : System Ctx D P B RE IE E) (n : Nat),
      (sys.callers t).pc = .invites es → es.length + 1 ≤ n →
      System.run deps (List.replicate n t) sys
        = sys.finish t (inviteEventsLoop deps (sys.callers t).ctx es sys.api).api
            (inviteEventsLoop deps (sys.callers t).ctx es sys.api).err
            (inviteEventsLoop deps (sys.callers t).ctx es sys.api).calls := by
  intro es
  induction es with
  | nil =>
    intro sys n hpc hn
    obtain ⟨m, rfl⟩ : ∃ m, n = m + 1 := ⟨n - 1, by simp at hn; omega⟩
    rw [List.replicate_succ, run_cons]
    have hs : System.step deps t sys
        = sys.finish t sys.api none [] := by
      simp [System.step, hpc, System.finish]
    rw [hs, run_returned deps t m _ none (by simp [System.finish, setPc_same])]
    simp [inviteEventsLoop]
  | cons e rest ih =>
    intro sys n hpc hn
    obtain ⟨m, rfl⟩ : ∃ m, n = m + 1 := ⟨n - 1, by simp at hn; omega⟩
    rw [List.replicate_succ, run_cons]
    cases hres : (runInviteEvent deps (sys.callers t).ctx sys.api.OutputRoomEventTopic
        (sys.api.DB, sys.api.Producer) e).2 with
    | some err =>
      have hs : System.step deps t sys = sys.finish t
          (inviteEventsLoop deps (sys.callers t).ctx (e :: rest) sys.api).api
          (inviteEventsLoop deps (sys.callers t).ctx (e :: rest) sys.api).err
          (inviteEventsLoop deps (sys.callers t).ctx (e :: rest) sys.api).calls := by
        simp [System.step, hpc, System.finish, inviteEventsLoop, hres]
      rw [hs, run_returned deps t m _ _ (by simp [System.finish, setPc_same]; rfl)]
    | none =>
      have hs : System.step deps t sys =
          { api := { sys.api with
              DB := (runInviteEvent deps (sys.callers t).ctx sys.api.OutputRoomEventTopic
                (sys.api.DB, sys.api.Producer) e).1.1,
              Producer := (runInviteEvent deps (sys.callers t).ctx
                sys.api.OutputRoomEventTopic (sys.api.DB, sys.api.Producer) e).1.2 },
            callers := sys.setPc t (.invites rest),
            trace := sys.trace ++ [(t,
              (⟨(sys.callers t).ctx, .invite e, sys.api.mutex, none⟩ :
                Invocation Ctx RE IE E))] } := by
        simp [System.step, hpc, hres]
      rw [hs, ih _ m (by simp [setPc_same]) (by simp at hn; omega)]
      simp [System.finish, setPc_setPc, inviteEventsLoop, hres, System.setPc]

theorem run_rooms (deps : Deps Ctx D P B RE IE OE E) (t : Nat) :
    ∀ (es : List RE) (sys : System Ctx D P B RE IE E) (n : Nat),
      (sys.callers t).pc = .rooms es →
      es.length + (sys.callers t).request.InputInviteEvents.length + 2 ≤ n →
      System.run deps (List.replicate n t) sys
        = match (roomEventsLoop deps (sys.callers t).ctx es sys.api).err with
          | some err =>
            sys.finish t (roomEventsLoop deps (sys.callers t).ctx es sys.api).api (some err)
              (roomEventsLoop deps (sys.callers t).ctx es sys.api).calls
          | none =>
            sys.finish t
              (inviteEventsLoop deps (sys.callers t).ctx
                (sys.callers t).request.InputInviteEvents
                (roomEventsLoop deps (sys.callers t).ctx es sys.api).api).api
              (inviteEventsLoop deps (sys.callers t).ctx
                (sys.callers t).request.InputInviteEvents
                (roomEventsLoop deps (sys.callers t).ctx es sys.api).api).err
              ((roomEventsLoop deps (sys.callers t).ctx es sys.api).calls ++
                (inviteEventsLoop deps (sys.callers t).ctx
                  (sys.callers t).request.InputInviteEvents
                  (roomEventsLoop deps (sys.callers t).ctx es sys.api).api).calls) := by
  intro es
  induction es with
  | nil =>
    intro sys n hpc hn
    obtain ⟨m, rfl⟩ : ∃ m, n = m + 1 := ⟨n - 1, by omega⟩
    rw [List.replicate_succ, run_cons]
    have hs : System.step deps t sys
        = { sys with callers := sys.setPc t (.invites (sys.callers t).request.InputInviteEvents) } := by
      simp [System.step, hpc]
    rw [hs, run_invites deps t (sys.callers t).request.InputInviteEvents _ m
      (by simp [setPc_same]) (by simp at hn; omega)]
    simp [System.finish, setPc_setPc, roomEventsLoop, System.setPc]
  | cons e rest ih =>
    intro sys n hpc hn
    obtain ⟨m, rfl⟩ : ∃ m, n = m + 1 := ⟨n - 1, by omega⟩
    rw [List.replicate_succ, run_cons]
    cases hres : (runRoomEvent deps (sys.callers t).ctx sys.api.OutputRoomEventTopic
        (sys.api.DB, sys.api.Producer) e).2 with
    | some err =>
      have hs : System.step deps t sys = sys.finish t
          (roomEventsLoop deps (sys.callers t).ctx (e :: rest) sys.api).api (some err)
          (roomEventsLoop deps (sys.callers t).ctx (e :: rest) sys.api).calls := by
        simp [System.step, hpc, System.finish, roomEventsLoop, hres]
      have he : (roomEventsLoop deps (sys.callers t).ctx (e :: rest) sys.api).err
          = some err := by
        simp [roomEventsLoop, hres]
      rw [hs, run_returned deps t m _ (some err) (by simp [System.finish, setPc_same]), he]
    | none =>
      have hs : System.step deps t sys =
          { api := { sys.api with
              DB := (runRoomEvent deps (sys.callers t).ctx sys.api.OutputRoomEventTopic
                (sys.api.DB, sys.api.Producer) e).1.1,
              Producer := (runRoomEvent deps (sys.callers t).ctx
                sys.api.OutputRoomEventTopic (sys.api.DB, sys.api.Producer) e).1.2 },
            callers := sys.setPc t (.rooms rest),
            trace := sys.trace ++ [(t,
              (⟨(sys.callers t).ctx, .room e, sys.api.mutex, none⟩ :
                Invocation Ctx RE IE E))] } := by
        simp [System.step, hpc, hres]
      rw [hs, ih _ m (by simp [setPc_same]) (by simp [System.setPc] at hn ⊢; omega)]
      simp only [roomEventsLoop, hres, System.setPc, Function.update_same]
      cases (roomEventsLoop deps (sys.callers t).ctx rest
        { sys.api with
          DB := (runRoomEvent deps (sys.callers t).ctx sys.api.OutputRoomEventTopic
            (sys.api.DB, sys.api.Producer) e).1.1,
          Producer := (runRoomEvent deps (sys.callers t).ctx
            sys.api.OutputRoomEventTopic (sys.api.DB, sys.api.Producer) e).1.2 }).err with
      | some err => simp [System.finish, System.setPc]
      | none => simp [System.finish, System.setPc]

/-- A caller that runs alone from a free mutex, for enough moves, ends in the
state in which `InputRoomEvents` returns: same receiver, same returned error,
and the same invocations, in the same order, appended to the trace. -/
theorem run_solo (deps : Deps Ctx D P B RE IE OE E) (t : Nat)
    (sys : System Ctx D P B RE IE E) (n : Nat)
    (hpc : (sys.callers t).pc = .waiting) (hfree : sys.api.mutex = false)
    (hn : (sys.callers t).request.InputRoomEvents.length
      + (sys.callers t).request.InputInviteEvents.length + 3 ≤ n) :
    ∃ out, InputRoomEvents deps (sys.callers t).ctx (sys.callers t).request () sys.api
        = some out ∧
      System.run deps (List.replicate n t) sys
        = { api := out.api, callers := sys.setPc t (.returned out.err),
            trace := sys.trace ++ out.calls.map (fun inv => (t, inv)) } := by
  obtain ⟨m, rfl⟩ : ∃ m, n = m + 1 := ⟨n - 1, by omega⟩
  rw [List.replicate_succ, run_cons]
  have hs : System.step deps t sys
      = { sys with api := { sys.api with mutex := true },
                   callers := sys.setPc t (.rooms (sys.callers t).request.InputRoomEvents) } := by
    simp [System.step, hpc, Lock, hfree]
  rw [hs, run_rooms deps t (sys.callers t).request.InputRoomEvents _ m
    (by simp [setPc_same]) (by simp [System.setPc]; omega)]
  simp only [System.setPc, Function.update_same]
  cases herr : (roomEventsLoop deps (sys.callers t).ctx (sys.callers t).request.InputRoomEvents
      { sys.api with mutex := true }).err with
  | some err =>
    refine ⟨_, InputRoomEvents_of_room_err deps _ _ () sys.api hfree err herr, ?_⟩
    simp [System.finish, System.setPc]
  | none =>
    refine ⟨_, InputRoomEvents_of_room_ok deps _ _ () sys.api hfree herr, ?_⟩
    simp [System.finish, System.setPc]

/-- C4: for any callers submitted concurrently to the same receiver, any order
in which the scheduler lets them move, and any two of them, `a` and `b`: in the
trace of processor invocations (each of which contains the records it
publishes), either every invocation of `a` comes before every invocation of
`b`, or every invocation of `b` comes before every invocation of `a`. -/
theorem System_run_not_interleaved (deps : Deps Ctx D P B RE IE OE E)
    (r : RoomserverInputAPI D P B) (batches : Nat → Ctx × InputRoomEventsRequest RE IE)
    (schedule : List Nat) (a b : Nat) (hab : a ≠ b) :
    (∀ (i j : Nat)
        (hi : i < (callerIds (System.run deps schedule
          (System.init r batches : System Ctx D P B RE IE E)).trace).length)
        (hj : j < (callerIds (System.run deps schedule
          (System.init r batches : System Ctx D P B RE IE E)).trace).length),
        (callerIds (System.run deps schedule (System.init r batches)).trace)[i] = a →
        (callerIds (System.run deps schedule (System.init r batches)).trace)[j] = b →
        i < j) ∨
    (∀ (i j : Nat)
        (hi : i < (callerIds (System.run deps schedule
          (System.init r batches : System Ctx D P B RE IE E)).trace).length)
        (hj : j < (callerIds (System.run deps schedule
          (System.init r batches : System Ctx D P B RE IE E)).trace).length),
        (callerIds (System.run deps schedule (System.init r batches)).trace)[i] = a →
        (callerIds (System.run deps schedule (System.init r batches)).trace)[j] = b →
        j < i) := by
  have hinv := inv_run deps schedule _ (inv_init r batches)
  rcases hinv.separated a b hab with h | h
  · left
    intro i j hi hj hia hjb
    exact allBefore_index a b hab _ h i j hi hj hia hjb
  · right
    intro i j hi hj hia hjb
    exact allBefore_index b a (Ne.symm hab) _ h j i hj hi hjb hia

/-- Witness for C4 on the concrete instance: callers `0` and `1` under a
schedule that alternates between them. Caller `1` is held at `Lock` until
caller `0` has returned, and the trace is the two invocations of caller `0`
followed by the four of caller `1`. -/
theorem System_run_not_interleaved_witness :
    callerIds (System.run (demoDeps Unit) demoSchedule
        (System.init demoAPI demoBatches : System Unit (List Nat) Unit Nat Nat Nat Nat)).trace
      = [0, 0, 1, 1, 1, 1] ∧
    ((∀ (i j : Nat)
        (hi : i < (callerIds (System.run (demoDeps Unit) demoSchedule
          (System.init demoAPI demoBatches :
            System Unit (List Nat) Unit Nat Nat Nat Nat)).trace).length)
        (hj : j < (callerIds (System.run (demoDeps Unit) demoSchedule
          (System.init demoAPI demoBatches :
            System Unit (List Nat) Unit Nat Nat Nat Nat)).trace).length),
        (callerIds (System.run (demoDeps Unit) demoSchedule
          (System.init demoAPI demoBatches)).trace)[i] = 0 →
        (callerIds (System.run (demoDeps Unit) demoSchedule
          (System.init demoAPI demoBatches)).trace)[j] = 1 →
        i < j) ∨
    (∀ (i j : Nat)
        (hi : i < (callerIds (System.run (demoDeps Unit) demoSchedule
          (System.init demoAPI demoBatches :
            System Unit (List Nat) Unit Nat Nat Nat Nat)).trace).length)
        (hj : j < (callerIds (System.run (demoDeps Unit) demoSchedule
          (System.init demoAPI demoBatches :
            System Unit (List Nat) Unit Nat Nat Nat Nat)).trace).length),
        (callerIds (System.run (demoDeps Unit) demoSchedule
          (System.init demoAPI demoBatches)).trace)[i] = 0 →
        (callerIds (System.run (demoDeps Unit) demoSchedule
          (System.init demoAPI demoBatches)).trace)[j] = 1 →
        j < i)) :=
  ⟨by decide,
   System_run_not_interleaved (demoDeps Unit) demoAPI demoBatches demoSchedule 0 1 (by decide)⟩

end Concurrency

end Input
